import Mathlib

/-!
Verification of the TypeT5 / coeditor contextual-code-change (C3) pipeline.

The development shallowly embeds the data model and operations of
`coeditor.code_change`, `coeditor.ctx_change_encoder` and `coeditor.dataset`.
Components whose defining module is not part of the provided sources
(`coeditor.history`, `coeditor.encoding`, `spot.static_analysis`, and the
newer half of `coeditor.code_change`) are modelled from the specification;
each such definition carries a doc comment starting with `Modelled from the
spec:`.

Text blobs are embedded as their lists of lines (`List String`); joining
code fragments with `"\n"` corresponds to list concatenation of their line
lists, so no information is lost by this packaging choice.
-/

/-! ## Change primitives (`coeditor.history`) -/

/-- Modelled from the spec: `coeditor.history` is absent from the sources.
`Change[T]` is a tagged variant with three cases `Added(after)`,
`Deleted(before)`, `Modified(before, after)`. -/
inductive Change (α : Type) where
  | Added (after : α)
  | Deleted (before : α)
  | Modified (before after : α)
deriving DecidableEq, Repr

namespace Change

/-- Modelled from the spec: the functor map applying `f` to both sides. -/
def map {α β : Type} (f : α → β) : Change α → Change β
  | .Added a => .Added (f a)
  | .Deleted b => .Deleted (f b)
  | .Modified b a => .Modified (f b) (f a)

/-- Modelled from the spec: `earlier()` returns the pre-edit side, or the
sole value for `Added`/`Deleted`. -/
def earlier {α : Type} : Change α → α
  | .Added a => a
  | .Deleted b => b
  | .Modified b _ => b

/-- Modelled from the spec: `later()` returns the post-edit side, or the
sole value for `Added`/`Deleted`. -/
def later {α : Type} : Change α → α
  | .Added a => a
  | .Deleted b => b
  | .Modified _ a => a

/-- Modelled from the spec: `as_char()` maps to `'A' | 'D' | 'M'`. -/
def as_char {α : Type} : Change α → Char
  | .Added _ => 'A'
  | .Deleted _ => 'D'
  | .Modified _ _ => 'M'

/-- Modelled from the spec: `from_unchanged(x)` returns `Modified(x, x)`. -/
def from_unchanged {α : Type} (x : α) : Change α := .Modified x x

/-- Modelled from the spec: `new_value(v)` keeps the tag and replaces the
carried value (used in `get_changed_spans` for `Added`/`Deleted` scopes). -/
def new_value {α β : Type} : Change α → β → Change β
  | .Added _, v => .Added v
  | .Deleted _, v => .Deleted v
  | .Modified _ _, v => .Modified v v

end Change

/-! ## Line delta engine (`coeditor.encoding`) -/

/-- Modelled from the spec: a single line-level edit operation, the internal
currency of the LCS-style line differ of `coeditor.encoding`. -/
inductive DiffOp (α : Type) where
  | keep (a : α)
  | del (a : α)
  | ins (a : α)
deriving DecidableEq, Repr

/-- Length of a longest common subsequence, used to steer the differ.
Fuel-based recursion (the fuel bounds the recursion depth; the wrapper
passes enough for the computation to be complete). -/
def lcsLenF {α : Type} [DecidableEq α] : Nat → List α → List α → Nat
  | _, [], _ => 0
  | _, _ :: _, [] => 0
  | 0, _ :: _, _ :: _ => 0
  | fuel + 1, a :: as, b :: bs =>
    if a = b then lcsLenF fuel as bs + 1
    else max (lcsLenF fuel (a :: as) bs) (lcsLenF fuel as (b :: bs))

/-- Length of a longest common subsequence of two line lists. -/
def lcsLen {α : Type} [DecidableEq α] (xs ys : List α) : Nat :=
  lcsLenF (xs.length + ys.length) xs ys

/-- Modelled from the spec: the standard longest-common-subsequence style
line differ (fuel-based recursion); ties are broken by preferring to group
additions after deletions at the same anchor. -/
def diffOpsF {α : Type} [DecidableEq α] : Nat → List α → List α → List (DiffOp α)
  | _, [], ys => ys.map .ins
  | _, x :: xs, [] => (x :: xs).map .del
  | 0, _ :: _, _ :: _ => []
  | fuel + 1, x :: xs, y :: ys =>
    if x = y then .keep x :: diffOpsF fuel xs ys
    else if lcsLen xs (y :: ys) ≥ lcsLen (x :: xs) ys then
      .del x :: diffOpsF fuel xs (y :: ys)
    else
      .ins y :: diffOpsF fuel (x :: xs) ys

/-- The line-level edit script between two text blobs (as line lists). -/
def diffOps {α : Type} [DecidableEq α] (xs ys : List α) : List (DiffOp α) :=
  diffOpsF (xs.length + ys.length) xs ys

/-- The input lines an op list consumes. -/
def opsInput {α : Type} : List (DiffOp α) → List α
  | [] => []
  | .keep a :: ops => a :: opsInput ops
  | .del a :: ops => a :: opsInput ops
  | .ins _ :: ops => opsInput ops

/-- The output lines an op list produces. -/
def opsOutput {α : Type} : List (DiffOp α) → List α
  | [] => []
  | .keep a :: ops => a :: opsOutput ops
  | .del _ :: ops => opsOutput ops
  | .ins b :: ops => b :: opsOutput ops

/-- Modelled from the spec: a line delta is the original line sequence plus
an ordered list of per-input-line deletions/additions. `lineEdits` carries,
for each input line, the lines inserted before it and whether the line
itself is deleted; `tail` holds the lines inserted after the last input
line. -/
structure StrDelta (α : Type) where
  lineEdits : List (List α × Bool)
  tail : List α
deriving DecidableEq, Repr

/-- Convert an op list to the per-input-line delta representation. -/
def opsToDelta {α : Type} : List (DiffOp α) → StrDelta α
  | [] => ⟨[], []⟩
  | .keep _ :: ops => ⟨([], false) :: (opsToDelta ops).lineEdits, (opsToDelta ops).tail⟩
  | .del _ :: ops => ⟨([], true) :: (opsToDelta ops).lineEdits, (opsToDelta ops).tail⟩
  | .ins b :: ops =>
    let d := opsToDelta ops
    match d.lineEdits with
    | [] => ⟨[], b :: d.tail⟩
    | (ins0, d0) :: rest => ⟨(b :: ins0, d0) :: rest, d.tail⟩

/-- Apply per-line edits to the input lines; input lines beyond the edit
list are kept unchanged (absent keys mean "no change"). -/
def applyEdits {α : Type} : List α → List (List α × Bool) → List α
  | xs, [] => xs
  | [], _ => []
  | x :: xs, (ins0, d0) :: es => ins0 ++ (if d0 then [] else [x]) ++ applyEdits xs es

namespace StrDelta

/-- Modelled from the spec: `apply(original, delta)` — insert each line's
additions before it, drop deleted lines, then append the tail additions. -/
def apply_to_input {α : Type} (d : StrDelta α) (input : List α) : List α :=
  applyEdits input d.lineEdits ++ d.tail

/-- Modelled from the spec: `for_input_range([lo,hi))` restricts the delta
to the given input lines (edits keyed at `hi` and beyond are dropped). -/
def for_input_range {α : Type} (d : StrDelta α) (r : Nat × Nat) : StrDelta α :=
  ⟨(d.lineEdits.drop r.1).take (r.2 - r.1), []⟩

/-- Whether the delta records any actual edit (`bool(delta)` in Python). -/
def isNonTrivial {α : Type} [DecidableEq α] (d : StrDelta α) : Bool :=
  d.lineEdits.any (fun e => !e.1.isEmpty || e.2) || !d.tail.isEmpty

end StrDelta

/-- The line delta computed between two text blobs (given as line lists). -/
def lineDelta {α : Type} [DecidableEq α] (a b : List α) : StrDelta α :=
  opsToDelta (diffOps a b)

/-! ## Scope trees and module diffing (`coeditor.code_change`) -/

/-- A `(module, inner-dotted-path)` pair identifying a scope or element. -/
structure ProjectPath where
  module : String
  path : String
deriving DecidableEq, Repr

/-- The kind of a change scope: a module, function or class
(`tree.type` of the wrapped parso node). -/
inductive ScopeKind where
  | moduleKind
  | functionKind
  | classKind
deriving DecidableEq, Repr

/-- A nonempty contiguous block of top-level statements inside one scope.
`statements` holds each statement's source lines (parso `get_code()`),
`start0`/`end0` the parso start/end lines; `code` and `line_range` are
derived exactly as in `StatementSpan.__post_init__`. -/
structure StatementSpan where
  statements : List (List String)
  start0 : Nat
  end0 : Nat
deriving DecidableEq, Repr

namespace StatementSpan

/-- Blank lines stripped from the front of the joined statement code. -/
def prefix_empty_lines (s : StatementSpan) : Nat :=
  ((s.statements.flatten).takeWhile (fun l => l == "")).length

/-- The span text with leading blank lines stripped (as a line list). -/
def code (s : StatementSpan) : List String :=
  (s.statements.flatten).dropWhile (fun l => l == "")

/-- `[start, end)` in the original module, with the start shifted past the
stripped blank lines. -/
def line_range (s : StatementSpan) : Nat × Nat :=
  (s.start0 + s.prefix_empty_lines, s.end0)

end StatementSpan

mutual
/-- A change scope: a python module, non-hidden function or non-hidden
class, with its statement spans and visible subscopes (in source order).
(The subscope list is a mutually defined inductive so that sizes and
equality stay computable.) -/
inductive ChangeScope where
  | mk (path : ProjectPath) (kind : ScopeKind) (header_line_range : Nat × Nat)
      (header_code : List String) (spans : List StatementSpan)
      (subscopes : ScopeList)

/-- A list of subscopes, in source order. -/
inductive ScopeList where
  | nil
  | cons (head : ChangeScope) (tail : ScopeList)
end

/-- The subscopes as a plain list. -/
def ScopeList.toList : ScopeList → List ChangeScope
  | .nil => []
  | .cons h t => h :: t.toList

mutual
/-- Number of scopes in a scope tree (structural, hence computable). -/
def scopeSize : ChangeScope → Nat
  | .mk _ _ _ _ _ subs => 1 + scopeListSize subs

def scopeListSize : ScopeList → Nat
  | .nil => 0
  | .cons h t => scopeSize h + scopeListSize t
end

namespace ChangeScope

def path : ChangeScope → ProjectPath
  | .mk p _ _ _ _ _ => p

def kind : ChangeScope → ScopeKind
  | .mk _ k _ _ _ _ => k

def header_line_range : ChangeScope → Nat × Nat
  | .mk _ _ h _ _ _ => h

/-- The header text of the scope (declaration plus decorators), as lines. -/
def header_code : ChangeScope → List String
  | .mk _ _ _ hc _ _ => hc

def spans : ChangeScope → List StatementSpan
  | .mk _ _ _ _ sp _ => sp

def subscopes : ChangeScope → List ChangeScope
  | .mk _ _ _ _ _ subs => subs.toList

/-- `"\n".join(s.code for s in spans)`: with line lists, joining with a
newline is concatenation of the line lists. -/
def spans_code (s : ChangeScope) : List String :=
  s.spans.flatMap (·.code)

end ChangeScope

/-- Modelled from the spec: `get_named_changes` of `coeditor.history` pairs
two keyed collections into `Modified`/`Deleted`/`Added` cases (here the
subscope collections, keyed by scope path). -/
def get_named_changes (olds news : List ChangeScope) : List (Change ChangeScope) :=
  (olds.map fun o =>
    match news.find? (fun n' => n'.path == o.path) with
    | some n' => Change.Modified o n'
    | none => Change.Deleted o)
  ++ (news.filter (fun n' => olds.all fun o => !(o.path == n'.path))).map Change.Added

/-- Records the changes made to one statement span (`coeditor.code_change`
version: the innermost scope pair plus the pre-edit line range). -/
structure ChangedSpan where
  change : Change (List String)
  scope_change : Change ChangeScope
  line_range : Nat × Nat

/-- The per-span loop of `get_modified_spans`: walk the old spans through
the concatenated code, restricting the delta to each span's line range. -/
def get_modified_spans_go (δ : StrDelta String) (old_scope new_scope : ChangeScope) :
    List StatementSpan → Nat → List ChangedSpan
  | [], _ => []
  | sp :: rest, line =>
    let r := (line, line + sp.code.length)
    let subdelta := δ.for_input_range r
    (if subdelta.isNonTrivial then
      [⟨Change.Modified sp.code (subdelta.apply_to_input sp.code),
        Change.Modified old_scope new_scope, sp.line_range⟩]
    else [])
    ++ get_modified_spans_go δ old_scope new_scope rest r.2

/-- `get_modified_spans` of `get_changed_spans`: diff the concatenation of
the same-level statement spans and map the delta back to each span. -/
def get_modified_spans (old_scope new_scope : ChangeScope) : List ChangedSpan :=
  if old_scope.spans_code = new_scope.spans_code then []
  else
    get_modified_spans_go
      (lineDelta old_scope.spans_code new_scope.spans_code)
      old_scope new_scope old_scope.spans 0

/-- Fuel bound for the recursion over a scope change. -/
def changeScopeFuel : Change ChangeScope → Nat
  | .Added s => scopeSize s
  | .Deleted s => scopeSize s
  | .Modified o n => scopeSize o + scopeSize n

/-- The `recurse` of `get_changed_spans` (fuel-based so that it evaluates;
the wrapper passes enough fuel for the recursion to complete). -/
def get_changed_spans_rec : Nat → Change ChangeScope → List ChangedSpan
  | 0, _ => []
  | fuel + 1, .Modified o n =>
    get_modified_spans o n
    ++ (get_named_changes o.subscopes n.subscopes).flatMap (get_changed_spans_rec fuel)
  | fuel + 1, .Added s =>
    s.spans.map (fun sp => ⟨Change.Added sp.code, Change.Added s, sp.line_range⟩)
    ++ s.subscopes.flatMap (fun t => get_changed_spans_rec fuel (Change.Added t))
  | fuel + 1, .Deleted s =>
    s.spans.map (fun sp => ⟨Change.Deleted sp.code, Change.Deleted s, sp.line_range⟩)
    ++ s.subscopes.flatMap (fun t => get_changed_spans_rec fuel (Change.Deleted t))

/-- `get_changed_spans`: extract the change spans from a scope change and
sort them by starting line (`list.sort` is a stable sort by key;
insertion sort has the same stable semantics). -/
def get_changed_spans (c : Change ChangeScope) : List ChangedSpan :=
  (get_changed_spans_rec (changeScopeFuel c + 1) c).insertionSort
    (fun s t => s.line_range.1 ≤ t.line_range.1)

mutual
/-- All scopes of a scope tree, root first. -/
def allScopes : ChangeScope → List ChangeScope
  | .mk p k h hc sp subs => .mk p k h hc sp subs :: allScopesL subs

/-- All scopes of a list of scope trees. -/
def allScopesL : ScopeList → List ChangeScope
  | .nil => []
  | .cons t rest => allScopes t ++ allScopesL rest
end

/-- The paths of all scopes of a scope tree. -/
def allPaths (s : ChangeScope) : List ProjectPath :=
  (allScopes s).map (·.path)

/-- Well-formedness of a parsed scope tree, as guaranteed by the scope tree
builder: scope paths are pairwise distinct, and within each scope the
statement spans have pairwise distinct line ranges (spans partition the
scope's body lines). -/
def WFScope (s : ChangeScope) : Prop :=
  (allPaths s).Nodup ∧ ∀ t ∈ allScopes s, ((t.spans).map (·.line_range)).Nodup

/-- Well-formedness of a scope change: both sides are well-formed trees. -/
def WFScopeChange : Change ChangeScope → Prop
  | .Added s => WFScope s
  | .Deleted s => WFScope s
  | .Modified o n => WFScope o ∧ WFScope n

/-- The identifying key of a changed span: change kind character, the path
of the earlier side of its scope change, and its line range. -/
def spanKey (e : ChangedSpan) : Char × ProjectPath × (Nat × Nat) :=
  (e.scope_change.as_char, e.scope_change.earlier.path, e.line_range)

/-- The candidate keys a scope change can possibly emit, enumerated in the
same order as `get_changed_spans_rec` walks the trees. -/
def candKeys : Nat → Change ChangeScope → List (Char × ProjectPath × (Nat × Nat))
  | 0, _ => []
  | fuel + 1, .Modified o n =>
    o.spans.map (fun sp => ('M', o.path, sp.line_range))
    ++ (get_named_changes o.subscopes n.subscopes).flatMap (candKeys fuel)
  | fuel + 1, .Added s =>
    s.spans.map (fun sp => ('A', s.path, sp.line_range))
    ++ s.subscopes.flatMap (fun t => candKeys fuel (.Added t))
  | fuel + 1, .Deleted s =>
    s.spans.map (fun sp => ('D', s.path, sp.line_range))
    ++ s.subscopes.flatMap (fun t => candKeys fuel (.Deleted t))

/-- Which tree a candidate key's path must live in, per change case. -/
def spanKeyIn (k : Char × ProjectPath × (Nat × Nat)) : Change ChangeScope → Prop
  | .Modified o n =>
    ((k.1 = 'M' ∨ k.1 = 'D') ∧ k.2.1 ∈ allPaths o) ∨ (k.1 = 'A' ∧ k.2.1 ∈ allPaths n)
  | .Added s => k.1 = 'A' ∧ k.2.1 ∈ allPaths s
  | .Deleted s => k.1 = 'D' ∧ k.2.1 ∈ allPaths s

/-! ## C3 problem generation (`coeditor.ctx_change_encoder`) -/

abbrev ModuleName := String

/-- Split a character list on dots, grouping the segments. -/
def splitDotsAux : List Char → List (List Char)
  | [] => [[]]
  | c :: cs =>
    let rest := splitDotsAux cs
    if c = '.' then [] :: rest
    else
      match rest with
      | [] => [[c]]
      | g :: gs => (c :: g) :: gs

/-- Modelled from the spec: `split_dots` of `spot.static_analysis` splits a
dotted full name into its segments. -/
def split_dots (s : String) : List String :=
  (splitDotsAux s.data).map (fun cs => String.mk cs)

/-- `s.startswith(pre)` (char-level, so that it evaluates). -/
def str_starts_with (s pre : String) : Bool :=
  pre.data.isPrefixOf s.data

/-- A resolved definition: `{full_name, start_pos, end_pos}`; equality and
hashing are on all three fields. -/
structure PyDefinition where
  full_name : String
  start_pos : Nat × Nat
  end_pos : Nat × Nat
deriving DecidableEq, Repr

/-- `PyDefinition.from_scope`: a definition standing for a scope, located
at its header line range. -/
def PyDefinition.from_scope (scope : ChangeScope) : PyDefinition :=
  { full_name := scope.path.module ++ "." ++ scope.path.path
    start_pos := (scope.header_line_range.1, 0)
    end_pos := (scope.header_line_range.2, 0) }

/-- `LineUsageAnalysis`: definition usages per line of one module. -/
structure LineUsageAnalysis where
  line2usages : List (Nat × List PyDefinition)
deriving DecidableEq, Repr

/-- Modelled from the spec: the encoder-side `ChangedSpan` (its defining,
newer `coeditor.code_change` is absent from the sources): the text change,
the parent scopes from module down to the immediate parent (each wrapped in
a `Change`), and the line range. -/
structure EncChangedSpan where
  change : Change (List String)
  parent_scopes : List (Change ChangeScope)
  line_range : Nat × Nat

/-- Placeholder scope for the (never occurring) empty parent chain. -/
def dummyScope : ChangeScope := .mk ⟨"", ""⟩ .moduleKind (0, 0) [] [] .nil

namespace EncChangedSpan

/-- The innermost parent scope change (`parent_scopes[-1]`). -/
def innermost (s : EncChangedSpan) : Change ChangeScope :=
  s.parent_scopes.getLastD (Change.Modified dummyScope dummyScope)

/-- Modelled from the spec: `path` is the innermost parent's path. -/
def path (s : EncChangedSpan) : ProjectPath :=
  s.innermost.earlier.path

/-- Modelled from the spec: the header line range of the innermost parent. -/
def header_line_range (s : EncChangedSpan) : Nat × Nat :=
  s.innermost.earlier.header_line_range

/-- Modelled from the spec: `_is_func_body()` iff the innermost parent is a
function. -/
def is_func_body (s : EncChangedSpan) : Bool :=
  s.innermost.earlier.kind == .functionKind

end EncChangedSpan

/-- A module known to the generator: its name and scope tree (`as_scope`). -/
structure JModuleV where
  mname : ModuleName
  as_scope : ChangeScope

/-- The encoder-side `JModuleChange`: the module-level change plus the
changed spans keyed by earliest-side scope path. -/
structure JModuleChangeE where
  module_change : Change JModuleV
  changed : List (ProjectPath × EncChangedSpan)

/-- Modelled from the spec: the encoder-side `JProjectChange`, carrying the
per-module changes and a pointer to the pre-edit module collection
(`all_modules.before`). -/
structure JProjectChangeE where
  changed : List (ModuleName × JModuleChangeE)
  all_modules_before : List JModuleV
  commit_info : Option String

/-- A contextual code change prediction problem. -/
structure C3Problem where
  span : EncChangedSpan
  relevant_changes : List EncChangedSpan
  relevant_unchanged : List EncChangedSpan
  src_info : Option String

/-- Try dotted-prefix lengths `k, k-1, …, 1` against the known modules. -/
def resolve_path_go (mods : List ModuleName) (segs : List String) :
    Nat → Option ProjectPath
  | 0 => none
  | k + 1 =>
    let m := String.intercalate "." (segs.take (k + 1))
    if mods.contains m then
      some ⟨m, String.intercalate "." (segs.drop (k + 1))⟩
    else resolve_path_go mods segs k

/-- Modelled from the spec: `ModuleHierarchy.resolve_path` maps a dotted
full name to a `(module, inner path)` pair by longest known-module
prefix. -/
def resolve_path (mods : List ModuleName) (segs : List String) : Option ProjectPath :=
  resolve_path_go mods segs segs.length

/-- The last dotted segment of a scope path (the scope's own name). -/
def last_seg (p : ProjectPath) : String :=
  (split_dots p.path).getLastD ""

/-- Modelled from the spec: `ChangeScope._search` resolves a dotted element
path (with a line-based fallback to the covering statement span) inside a
scope tree; the returned list is the ancestor chain from the module root
down to the element's owning scope. -/
def searchScope (anc : List ChangeScope) (s : ChangeScope) :
    List String → Nat → Option (List ChangeScope × (ChangeScope ⊕ StatementSpan))
  | [], line =>
    match s.spans.find? (fun sp =>
        decide (sp.line_range.1 ≤ line ∧ line < sp.line_range.2)) with
    | some sp => some (anc ++ [s], Sum.inr sp)
    | none => none
  | seg :: rest, line =>
    match s.subscopes.find? (fun t => last_seg t.path == seg) with
    | some t =>
      match rest with
      | [] => some (anc ++ [s], Sum.inl t)
      | _ => searchScope (anc ++ [s]) t rest line
    | none => none

/-- Placeholder statement span (`spans` of real scopes are nonempty). -/
def stmtSpanDummy : StatementSpan := ⟨[], 0, 0⟩

/-- Strip empty lines from both ends (`text.strip("\n")` on a line list). -/
def strip_nl (lines : List String) : List String :=
  ((lines.dropWhile (· == "")).reverse.dropWhile (· == "")).reverse

/-- `"    " * k`. -/
def indentStr (k : Nat) : String :=
  String.join (List.replicate k "    ")

/-- `get_def_spans` of `C3ProblemGenerator.process_change`: resolve a used
definition to the (pre-edit) `ChangedSpan`-shaped fragments presenting it:
the collapsed last statement of a function (with an ellipsis marker when
elided), all attribute spans plus per-method fragments of a class, or a
top-level statement span itself. (The Python-side cache is keyed
inconsistently and never hits, so it is omitted.) -/
def get_def_spans (before_mods : List JModuleV) (used : PyDefinition) :
    List EncChangedSpan :=
  match resolve_path (before_mods.map (·.mname)) (split_dots used.full_name) with
  | none => []
  | some pp =>
    match before_mods.find? (fun m => m.mname == pp.module) with
    | none => []
    | some jmod =>
      let segs := if pp.path = "" then [] else split_dots pp.path
      match searchScope [] jmod.as_scope segs used.start_pos.1 with
      | none => []
      | some (chain, elem) =>
        let pair : List (List ChangeScope × ChangeScope)
            × List (List ChangeScope × StatementSpan) :=
          match elem with
          | .inl t =>
            match t.kind with
            | .functionKind =>
              ([(chain ++ [t], t)], ([] : List (List ChangeScope × StatementSpan)))
            | .classKind =>
              ((t.subscopes.filter (fun f => f.kind == .functionKind)).map
                 (fun f => (chain ++ [t, f], f)),
               t.spans.map (fun sp => (chain ++ [t], sp)))
            | .moduleKind => ([], [])
          | .inr sp => ([], [(chain, sp)])
        (pair.1.map (fun af =>
          let stmts := (af.2.spans.getLastD stmtSpanDummy).statements
          let body0 := strip_nl (stmts.getLastD [])
          let body :=
            if stmts.length > 1 then
              (indentStr (af.1.length - 1) ++ "# ...") :: body0
            else body0
          EncChangedSpan.mk (Change.from_unchanged body)
            (af.1.map Change.from_unchanged)
            (af.2.spans.getLastD stmtSpanDummy).line_range))
        ++ pair.2.map (fun asp =>
          EncChangedSpan.mk (Change.from_unchanged asp.2.code)
            (asp.1.map Change.from_unchanged) asp.2.line_range)

/-- The `(module, line_range)` deduplication key of a span. -/
def span_seen_key (c : EncChangedSpan) : ModuleName × (Nat × Nat) :=
  (c.path.module, c.line_range)

/-- Keep the spans whose key is not yet seen, updating the seen set. -/
def pick_unique_spans :
    List EncChangedSpan → List (ModuleName × (Nat × Nat)) →
    List EncChangedSpan × List (ModuleName × (Nat × Nat))
  | [], seen => ([], seen)
  | c :: cs, seen =>
    if span_seen_key c ∈ seen then pick_unique_spans cs seen
    else
      let rec_result := pick_unique_spans cs (span_seen_key c :: seen)
      (c :: rec_result.1, rec_result.2)

/-- The final loop of `get_relevant_unchanged`: spans of each used
definition in order, deduplicated by `(module, line_range)`. -/
def collect_unique (defSpans : PyDefinition → List EncChangedSpan) :
    List PyDefinition → List (ModuleName × (Nat × Nat)) → List EncChangedSpan
  | [], _ => []
  | d :: rest, seen =>
    let picked := pick_unique_spans (defSpans d) seen
    picked.1 ++ collect_unique defSpans rest picked.2

/-- The usages recorded for one line (`line2usages.get(l, set())`). -/
def lookup_usages (lu : LineUsageAnalysis) (l : Nat) : List PyDefinition :=
  match lu.line2usages.find? (fun e => e.1 == l) with
  | some e => e.2
  | none => []

/-- The per-line collection loop of `get_relevant_unchanged`: append every
definition used on a line, skipping self references (definitions inside the
very lines being edited) and duplicates. -/
def gather_defs (mod : String) (all_lines : List Nat) (lu : LineUsageAnalysis) :
    List Nat → List PyDefinition → List PyDefinition
  | [], acc => acc
  | l :: rest, acc =>
    let acc' := (lookup_usages lu l).foldl (fun acc2 pydef =>
      if str_starts_with pydef.full_name mod
          && all_lines.contains pydef.start_pos.1 then acc2
      else if pydef ∈ acc2 then acc2
      else acc2 ++ [pydef]) acc
    gather_defs mod all_lines lu rest acc'

/-- `get_relevant_unchanged` of `C3ProblemGenerator.process_change`: seed
the parent definitions innermost-first, add the line usages, resolve each
definition to fragments and deduplicate against the changed spans. -/
def get_relevant_unchanged (defSpans : PyDefinition → List EncChangedSpan)
    (line_usages : LineUsageAnalysis)
    (this_change : EncChangedSpan) (other_changes : List EncChangedSpan) :
    List EncChangedSpan :=
  match this_change.change with
  | .Added _ => []
  | _ =>
    let parent_defs := this_change.parent_scopes.map
        (fun c => PyDefinition.from_scope c.earlier)
    let all_lines := ((List.range' this_change.line_range.1
        (this_change.line_range.2 - this_change.line_range.1))
      ++ List.range' this_change.header_line_range.1
          (this_change.header_line_range.2 - this_change.header_line_range.1)).dedup
    let sorted_defs := gather_defs this_change.path.module all_lines line_usages
        all_lines parent_defs.reverse
    let seen := (this_change :: other_changes).map span_seen_key
    collect_unique defSpans sorted_defs seen

/-- The gate of `process_change`:
`span.change.as_char() == Modified.as_char() and (is_training or span._is_func_body())`. -/
def should_make_problem (is_training : Bool) (span : EncChangedSpan) : Bool :=
  span.change.as_char == 'M' && (is_training || span.is_func_body)

/-- `mod2usages[m]` as a fallible lookup (Python raises `KeyError`). -/
def lookup_usage_map (m : List (ModuleName × LineUsageAnalysis))
    (k : ModuleName) : Option LineUsageAnalysis :=
  match m.find? (fun e => e.1 == k) with
  | some e => some e.2
  | none => none

/-- The span loop of `process_change`: emit a problem when the gate allows,
then append the span to the rolling processed list either way. -/
def process_spans (before_mods : List JModuleV)
    (mod2usages : List (ModuleName × LineUsageAnalysis))
    (commit : Option String) (is_training : Bool) :
    List EncChangedSpan → List EncChangedSpan → List C3Problem →
    Except String (List EncChangedSpan × List C3Problem)
  | [], processed, probs => .ok (processed, probs)
  | span :: rest, processed, probs =>
    if should_make_problem is_training span then
      match lookup_usage_map mod2usages span.path.module with
      | none => .error "KeyError"
      | some lu =>
        let relevant_changes := processed.reverse
        let prob : C3Problem :=
          ⟨span, relevant_changes,
            get_relevant_unchanged (get_def_spans before_mods) lu span
              relevant_changes, commit⟩
        process_spans before_mods mod2usages commit is_training rest
          (processed ++ [span]) (probs ++ [prob])
    else
      process_spans before_mods mod2usages commit is_training rest
        (processed ++ [span]) probs

/-- The module loop of `process_change`: walk `module_order`, skipping
modules without changes. -/
def process_modules (pchange : JProjectChangeE)
    (mod2usages : List (ModuleName × LineUsageAnalysis)) (is_training : Bool) :
    List ModuleName → List EncChangedSpan → List C3Problem →
    Except String (List EncChangedSpan × List C3Problem)
  | [], processed, probs => .ok (processed, probs)
  | m :: ms, processed, probs =>
    match (pchange.changed.find? (fun e => e.1 == m)) with
    | none => process_modules pchange mod2usages is_training ms processed probs
    | some e =>
      match process_spans pchange.all_modules_before mod2usages
          pchange.commit_info is_training (e.2.changed.map (·.2))
          processed probs with
      | .error msg => .error msg
      | .ok out =>
        process_modules pchange mod2usages is_training ms out.1 out.2

/-- `C3ProblemGenerator.process_change`. -/
def process_change (pchange : JProjectChangeE)
    (mod2usages : List (ModuleName × LineUsageAnalysis))
    (module_order : List ModuleName) (is_training : Bool) :
    Except String (List C3Problem) :=
  match process_modules pchange mod2usages is_training module_order [] [] with
  | .error msg => .error msg
  | .ok out => .ok out.2

/-- All spans the generator considers, in walk order. -/
def considered_spans (pchange : JProjectChangeE)
    (module_order : List ModuleName) : List EncChangedSpan :=
  module_order.flatMap (fun m =>
    match pchange.changed.find? (fun e => e.1 == m) with
    | none => []
    | some e => e.2.changed.map (·.2))

/-- Reference formulation of the emitted problems of a span sequence, used
to state the loop's behaviour (the `none` lookup case never contributes
when the run succeeded). -/
def gen_problems (before_mods : List JModuleV)
    (mod2usages : List (ModuleName × LineUsageAnalysis))
    (commit : Option String) (is_training : Bool) :
    List EncChangedSpan → List EncChangedSpan → List C3Problem
  | [], _ => []
  | span :: rest, processed =>
    (if should_make_problem is_training span then
      match lookup_usage_map mod2usages span.path.module with
      | some lu =>
        [⟨span, processed.reverse,
          get_relevant_unchanged (get_def_spans before_mods) lu span
            processed.reverse, commit⟩]
      | none => []
    else [])
    ++ gen_problems before_mods mod2usages commit is_training rest
        (processed ++ [span])

/-! ## Usage analyzer error handling (`JediUsageAnalyzer.get_line_usages`) -/

/-- A parso name node: its text and start position. -/
structure JName where
  value : String
  start_pos : Nat × Nat
deriving DecidableEq, Repr

/-- The canonical error string: `repr(e)` truncated to 40 characters plus
an ellipsis when longer. -/
def trunc_error (e : String) : String :=
  if e.length > 40 then e.take 40 ++ "..." else e

/-- Increment a histogram entry (`error_counts[k] = error_counts.get(k, 0) + 1`). -/
def bump_count : List (String × Nat) → String → List (String × Nat)
  | [], k => [(k, 1)]
  | e :: rest, k =>
    if e.1 == k then (e.1, e.2 + 1) :: rest else e :: bump_count rest k

/-- The current count of a histogram entry (`error_counts.get(k, 0)`). -/
def count_of : List (String × Nat) → String → Nat
  | [], _ => 0
  | e :: rest, k => if e.1 == k then e.2 else count_of rest k

/-- `line2usages.setdefault(line, set())`. -/
def setdefault_usages (m : List (Nat × List PyDefinition)) (l : Nat) :
    List (Nat × List PyDefinition) :=
  match m.find? (fun e => e.1 == l) with
  | some _ => m
  | none => m ++ [(l, [])]

/-- `usages.update(defs)`: add the definitions not yet present. -/
def update_usages (m : List (Nat × List PyDefinition)) (l : Nat)
    (ds : List PyDefinition) : List (Nat × List PyDefinition) :=
  m.map (fun e =>
    if e.1 == l then
      (e.1, ds.foldl (fun acc d => if d ∈ acc then acc else acc ++ [d]) e.2)
    else e)

/-- The analyzer state: the per-line usages being built and the error
histogram. -/
structure UsageState where
  line2usages : List (Nat × List PyDefinition)
  error_counts : List (String × Nat)
deriving DecidableEq, Repr

/-- The per-name loop of `JediUsageAnalyzer.get_line_usages`: skip names on
lines not under analysis; resolve each remaining name (the jedi `_fast_goto`
call is the external fallible `resolve`); record resolved definitions; on a
per-name exception, count its truncated text and continue with the next
name. -/
def process_names (resolve : JName → Except String (List PyDefinition))
    (lines_to_analyze : List Nat) :
    List JName → UsageState → UsageState
  | [], st => st
  | nm :: rest, st =>
    if nm.start_pos.1 ∈ lines_to_analyze then
      let st1 : UsageState :=
        { st with line2usages := setdefault_usages st.line2usages nm.start_pos.1 }
      match resolve nm with
      | .ok ds =>
        process_names resolve lines_to_analyze rest
          { st1 with
            line2usages := update_usages st1.line2usages nm.start_pos.1 ds }
      | .error e =>
        process_names resolve lines_to_analyze rest
          { st1 with error_counts := bump_count st1.error_counts (trunc_error e) }
    else process_names resolve lines_to_analyze rest st

/-- `JediUsageAnalyzer.get_line_usages`: sort all names by position, then
run the per-name loop; always returns an analysis (never propagates a
per-name resolution failure). -/
def get_line_usages (resolve : JName → Except String (List PyDefinition))
    (lines_to_analyze : List Nat) (all_names : List JName)
    (st : UsageState) : UsageState :=
  process_names resolve lines_to_analyze
    (all_names.insertionSort (fun a b =>
      a.start_pos.1 < b.start_pos.1
        ∨ (a.start_pos.1 = b.start_pos.1 ∧ a.start_pos.2 ≤ b.start_pos.2)))
    st

/-! ## Replay fault tolerance (`edits_from_commit_history` / `dataset`) -/

/-- Modelled from the spec: the observable behaviour of processing one
commit during replay — its processing time and either the problems it
contributes or the error it raises. (The newer `edits_from_commit_history`
with its per-commit time budget is absent from the sources; only its
callers are present.) -/
structure CommitRun (α : Type) where
  duration : Nat
  outcome : Except String (List α)

/-- Modelled from the spec: replay over a commit history with a per-commit
time budget; a commit that exceeds the budget or raises is skipped (counted
in the error histogram) and the replay continues with the remaining
commits, returning the results accumulated for the other commits. -/
def replay_commits {α : Type} (budget : Nat) :
    List (CommitRun α) → List α × List (String × Nat)
  | [] => ([], [])
  | c :: rest =>
    let r := replay_commits budget rest
    if c.duration > budget then (r.1, bump_count r.2 "timeout")
    else
      match c.outcome with
      | .ok rs => (rs ++ r.1, r.2)
      | .error e => (r.1, bump_count r.2 e)

/-! ## The `span.change is Added` guard (`pre_edit_analysis`) -/

/-- The Python objects compared by the `span.change is Added` test: a
`Change` instance, or the `Added` class object itself. -/
inductive PyObj where
  | inst (c : Change (List String))
  | addedClass

/-- Python `is` on these shapes: an instance is never identical to a class
object; the class object is identical to itself. (Two instances are
compared by identity; structural equality stands in for it here — that
shape is not exercised by the guard under study.) -/
def pyIs : PyObj → PyObj → Bool
  | .inst a, .inst b => a == b
  | .addedClass, .addedClass => true
  | _, _ => false

/-- The `lines_to_analyze` computation of
`C3ProblemGenerator.pre_edit_analysis` (the jedi analyzer invocation on
those lines is external): for every module whose change is `Modified`,
collect the line range and header line range of each changed span; the
`span.change is Added` guard is translated verbatim through `pyIs`. -/
def pre_edit_lines_to_analyze (changes : List (ModuleName × JModuleChangeE)) :
    List (ModuleName × List Nat) :=
  changes.filterMap (fun e =>
    match e.2.module_change with
    | .Modified _ _ =>
      some (e.1, (e.2.changed.map (·.2)).flatMap (fun span =>
        if pyIs (.inst span.change) .addedClass then []
        else
          List.range' span.line_range.1 (span.line_range.2 - span.line_range.1)
          ++ List.range' span.header_line_range.1
              (span.header_line_range.2 - span.header_line_range.1)))
    | _ => none)

/-! ## Concrete inputs for witnesses and counterexamples -/

def mScopeA : ChangeScope := .mk ⟨"a", ""⟩ .moduleKind (1, 1) [] [] .nil

def fScopeB : ChangeScope :=
  .mk ⟨"b", "f"⟩ .functionKind (1, 2) ["def f():"] [] .nil

def mScopeB : ChangeScope := .mk ⟨"b", ""⟩ .moduleKind (1, 1) [] [] .nil

def spanA1 : EncChangedSpan :=
  ⟨Change.Modified ["x = 1"] ["x = 2"], [Change.Modified mScopeA mScopeA], (1, 2)⟩

def spanA2 : EncChangedSpan :=
  ⟨Change.Added ["def g(): pass"], [Change.Modified mScopeA mScopeA], (1, 2)⟩

def spanB : EncChangedSpan :=
  ⟨Change.Modified ["  return 1"] ["  return 2"],
    [Change.Modified mScopeB mScopeB, Change.Modified fScopeB fScopeB], (2, 3)⟩

/-- Two modules; module `a` carries two spans sharing the key `("a",(1,2))`. -/
def pchangeAB : JProjectChangeE :=
  ⟨[("a", ⟨Change.Modified ⟨"a", mScopeA⟩ ⟨"a", mScopeA⟩,
      [(⟨"a", ""⟩, spanA1), (⟨"a", "g"⟩, spanA2)]⟩),
    ("b", ⟨Change.Modified ⟨"b", mScopeB⟩ ⟨"b", mScopeB⟩,
      [(⟨"b", "f"⟩, spanB)]⟩)], [], none⟩

def usagesAB : List (ModuleName × LineUsageAnalysis) :=
  [("a", ⟨[]⟩), ("b", ⟨[]⟩)]

/-- One module with one function-body modification. -/
def pchangeB : JProjectChangeE :=
  ⟨[("b", ⟨Change.Modified ⟨"b", mScopeB⟩ ⟨"b", mScopeB⟩,
      [(⟨"b", "f"⟩, spanB)]⟩)], [], none⟩

def usagesB : List (ModuleName × LineUsageAnalysis) := [("b", ⟨[]⟩)]

def problemB0 : C3Problem := ⟨spanB, [], [], none⟩

/-- The added-function scenario: `mNewScope` adds `def h(): pass`. -/
def mOldScope : ChangeScope :=
  .mk ⟨"m", ""⟩ .moduleKind (1, 1) [] [⟨[["x = 1"]], 1, 2⟩] .nil

def hScope : ChangeScope :=
  .mk ⟨"m", "h"⟩ .functionKind (2, 3) ["def h():"] [⟨[["def h(): pass"]], 2, 3⟩] .nil

def mNewScope : ChangeScope :=
  .mk ⟨"m", ""⟩ .moduleKind (1, 1) [] [⟨[["x = 1"]], 1, 2⟩] (.cons hScope .nil)

def spanH : EncChangedSpan :=
  ⟨Change.Added ["def h(): pass"],
    [Change.Modified mOldScope mNewScope, Change.Added hScope], (2, 3)⟩

def pchangeH : JProjectChangeE :=
  ⟨[("m", ⟨Change.Modified ⟨"m", mOldScope⟩ ⟨"m", mNewScope⟩,
      [(⟨"m", "h"⟩, spanH)]⟩)], [], none⟩

def usagesM : List (ModuleName × LineUsageAnalysis) := [("m", ⟨[]⟩)]

/-- The `lines_to_analyze` computation with the `span.change is Added`
guard removed, following the spec's words: every changed span's line range
and header line range is analyzed. -/
def pre_edit_lines_all (changes : List (ModuleName × JModuleChangeE)) :
    List (ModuleName × List Nat) :=
  changes.filterMap (fun e =>
    match e.2.module_change with
    | .Modified _ _ =>
      some (e.1, (e.2.changed.map (·.2)).flatMap (fun span =>
        List.range' span.line_range.1 (span.line_range.2 - span.line_range.1)
        ++ List.range' span.header_line_range.1
            (span.header_line_range.2 - span.header_line_range.1)))
    | _ => none)

/-! ## Token packing (`C3ProblemTokenizer`) -/

abbrev TokenSeq := List Nat

/-- Modelled from the spec: the fixed vocabulary exposes distinct ids for
`Newline`, `Add`, `Del`, `BOS`, `EOS`, a range of `extra_id` markers and a
text encoder; the exact ids are implementation-defined. -/
def Newline_id : Nat := 0

def Add_id : Nat := 1

def Del_id : Nat := 2

def BOS_id : Nat := 3

def EOS_id : Nat := 4

/-- The `extra_id(k)` marker. -/
def get_extra_id (k : Nat) : Nat := 100 + k

/-- Whether a token is an `extra_id` marker. -/
def is_extra_tk (t : Nat) : Bool := 100 ≤ t && t < 1000

/-- Modelled from the spec: the text encoder for one line (no newlines). -/
def encode_basic_line (s : String) : TokenSeq :=
  s.data.map (fun c => 1000 + c.toNat)

/-- `has_change` (from `coeditor.encoders`): whether the tokens contain an
add or delete edit token. -/
def has_change (tks : TokenSeq) : Bool :=
  tks.contains Add_id || tks.contains Del_id

/-- Truncation direction (`TruncateAt`). -/
inductive TruncDir where
  | Left
  | Right

/-- Modelled from the spec: truncate a section to a budget from the given
side, marking the cut edge with `BOS`/`EOS` when `add_bos` is set. -/
def truncate_section (sec : TokenSeq) (dir : TruncDir) (limit : Nat)
    (add_bos : Bool := true) : TokenSeq :=
  if sec.length ≤ limit then sec
  else if add_bos then
    match dir, limit with
    | _, 0 => []
    | .Right, l + 1 => sec.take l ++ [EOS_id]
    | .Left, l + 1 => BOS_id :: sec.drop (sec.length - l)
  else
    match dir with
    | .Right => sec.take limit
    | .Left => sec.drop (sec.length - limit)

/-- Modelled from the spec: split a shared budget between two sections,
truncating each to its share. -/
def truncate_sections (total : Nat) (s1 : TokenSeq × TruncDir)
    (s2 : TokenSeq × TruncDir) : TokenSeq × TokenSeq :=
  let l1 := min s1.1.length (max (total / 2) (total - s2.1.length))
  let l2 := min s2.1.length (total - l1)
  (truncate_section s1.1 s1.2 l1, truncate_section s2.1 s2.2 l2)

/-- Modelled from the spec: drop the output segments whose `extra_id`
marker no longer appears in the (truncated) input. -/
def truncate_output_go (keepIds : TokenSeq) :
    TokenSeq → Bool → TokenSeq
  | [], _ => []
  | t :: rest, keeping =>
    if is_extra_tk t then
      (if keepIds.contains t then [t] else [])
        ++ truncate_output_go keepIds rest (keepIds.contains t)
    else
      (if keeping then [t] else []) ++ truncate_output_go keepIds rest keeping

/-- `truncate_output_tks`: keep only the output lines whose `extra_id`
marker survived input truncation. -/
def truncate_output_tks (in_tks out_tks : TokenSeq) : TokenSeq :=
  truncate_output_go (in_tks.filter is_extra_tk) out_tks true

/-- Modelled from the spec: break a stream into chunks of size
`chunk_size` with `overlap`, each prefixed by its indexed header
(fuel-based; the wrapper passes enough fuel). -/
def break_into_chunks_go (header : Nat → TokenSeq) (chunk_size overlap : Nat)
    (rtl : Bool) : Nat → TokenSeq → Nat → List TokenSeq
  | 0, _, _ => []
  | fuel + 1, content, i =>
    if content.isEmpty then []
    else
      let h := header i
      let body_size := chunk_size - h.length
      let body := content.take body_size
      let chunk := h ++ (if rtl then body.reverse else body)
      if content.length ≤ body_size then [chunk]
      else
        chunk :: break_into_chunks_go header chunk_size overlap rtl fuel
          (content.drop (max 1 (body_size - overlap))) (i + 1)

/-- `break_into_chunks`; for `right_to_left`, chunks are taken from the
right end of the stream. -/
def break_into_chunks (content : TokenSeq) (header : Nat → TokenSeq)
    (chunk_size overlap : Nat) (right_to_left : Bool := false) :
    List TokenSeq :=
  break_into_chunks_go header chunk_size overlap right_to_left
    (content.length + 1)
    (if right_to_left then content.reverse else content) 0

/-- Greedy reference budget: keep each reference whose size would not push
the cumulative total over the budget. -/
def keep_refs (limit : Nat) : Nat → List (String × TokenSeq) →
    List (String × TokenSeq)
  | _, [] => []
  | size_sum, r :: rest =>
    if size_sum + r.2.length ≤ limit then
      r :: keep_refs limit (size_sum + r.2.length) rest
    else keep_refs limit size_sum rest

/-- The tokenizer configuration, with the source's default caps. -/
structure C3ProblemTokenizer where
  max_ref_tks : Nat := 512
  max_query_tks : Nat := 512
  max_output_tks : Nat := 256
  max_scope_tks : Nat := 128
  max_lines_to_edit : Nat := 20
  ref_chunk_overlap : Nat := 32
  max_total_ref_tks : Nat := 512 * 64
  max_chunks_per_elem : Nat := 4
  skip_unchanged_problems : Bool := true

/-- A tokenized contextual code change prediction problem. -/
structure TkC3Problem where
  input_tks : TokenSeq
  output_tks : TokenSeq
  path : ProjectPath
  change_type : Change Unit
  named_references : List (String × TokenSeq)
  src_info : Option String

/-- Modelled from the spec: tokens of unchanged lines. -/
def encode_lines (lines : List String) : TokenSeq :=
  List.intercalate [Newline_id] (lines.map encode_basic_line)

/-- Modelled from the spec: tokens of lines each prefixed by an edit
marker. -/
def encode_lines_with (mark : Nat) (lines : List String) : TokenSeq :=
  List.intercalate [Newline_id] (lines.map (fun l => mark :: encode_basic_line l))

/-- Modelled from the spec: `change_to_tokens` renders a change as a diff
token stream (kept lines plain, deletions and additions marked). -/
def change_to_tokens : Change (List String) → TokenSeq
  | .Added after => encode_lines_with Add_id after
  | .Deleted before => encode_lines_with Del_id before
  | .Modified before after =>
    if before = after then encode_lines before
    else
      List.intercalate [Newline_id] ((diffOps before after).map (fun op =>
        match op with
        | .keep l => encode_basic_line l
        | .del l => Del_id :: encode_basic_line l
        | .ins l => Add_id :: encode_basic_line l))

/-- Modelled from the spec: `change_to_line_diffs` followed by
`line_diffs_to_original_delta`: the original text and its line delta. -/
def change_to_original_delta : Change (List String) → List String × StrDelta String
  | .Modified before after => (before, lineDelta before after)
  | .Added after => ([""], lineDelta [""] after)
  | .Deleted before => (before, lineDelta before [""])

/-- The token delta stream: entry `i` holds the add/del action token
sequences for original line `i`, with one extra entry for end insertions. -/
structure TkDelta where
  deltas : List (List TokenSeq)

/-- Modelled from the spec: `StrDelta.to_tk_delta`. -/
def StrDelta.to_tk_delta (d : StrDelta String) : TkDelta :=
  ⟨d.lineEdits.map (fun e =>
      e.1.map (fun l => Add_id :: encode_basic_line l)
      ++ (if e.2 then [[Del_id]] else []))
    ++ [d.tail.map (fun l => Add_id :: encode_basic_line l)]⟩

/-- `TkDelta.for_input_range`: restrict to the lines in `[lo, hi)`. -/
def TkDelta.for_input_range (d : TkDelta) (r : Nat × Nat) : TkDelta :=
  ⟨(d.deltas.drop r.1).take (r.2 - r.1)⟩

/-- Modelled from the spec: render one line's change tokens. -/
def line_change_tks (acts : List TokenSeq) (line : TokenSeq) : TokenSeq :=
  List.intercalate [Newline_id]
    ((if acts.contains [Del_id] then [Del_id :: line] else [line])
      ++ acts.filter (fun a => a ≠ [Del_id]))

/-- Modelled from the spec: `TkDelta.to_change_tks` renders the delta
applied over the given (newline-joined) input tokens as change tokens. -/
def TkDelta.to_change_tks (d : TkDelta) (tks : TokenSeq) : TokenSeq :=
  let lines := tks.splitOn Newline_id
  List.intercalate [Newline_id]
    ((List.range lines.length).map (fun i =>
      line_change_tks (d.deltas.getD i []) (lines.getD i [])))

/-- `C3ProblemTokenizer._encode_scope_change` (the identity-keyed cache is
value-transparent and omitted). -/
def encode_scope_change (cfg : C3ProblemTokenizer) (c : Change ChangeScope) :
    TokenSeq :=
  truncate_section (change_to_tokens (c.map (fun s => strip_nl s.header_code)))
    .Left cfg.max_scope_tks

/-- `C3ProblemTokenizer._encode_parent_scopes`. -/
def encode_parent_scopes (cfg : C3ProblemTokenizer)
    (scope_changes : List (Change ChangeScope)) (offset : Int) : TokenSeq :=
  let scope_tks := List.intercalate [Newline_id]
      (scope_changes.map (encode_scope_change cfg))
  let scope_tks :=
    if offset ≠ 0 then
      scope_tks ++ [Newline_id] ++ encode_basic_line s!"# offset: {offset}"
        ++ [Newline_id]
    else scope_tks ++ [Newline_id]
  truncate_section scope_tks .Left cfg.max_scope_tks

/-- `C3ProblemTokenizer._encode_change` (identity cache omitted). -/
def encode_change (c : Change (List String)) : TokenSeq :=
  change_to_tokens (c.map strip_nl)

/-- Placeholder encoder span (groups are nonempty by construction). -/
def dummyEncSpan : EncChangedSpan := ⟨Change.Added [], [], (0, 0)⟩

/-- Group spans by module, preserving first-appearance order
(`groupby` of `coeditor.common`). -/
def groupby_module (changes : List EncChangedSpan) :
    List (ModuleName × List EncChangedSpan) :=
  changes.foldl (fun acc c =>
    let m := c.path.module
    match acc.find? (fun e => e.1 == m) with
    | some _ => acc.map (fun e => if e.1 == m then (e.1, e.2 ++ [c]) else e)
    | none => acc ++ [(m, [c])]) []

/-- The parent scopes a span newly enters relative to the previous one
(the `scope_diff` of `_group_encode_changed_refs`). -/
def scope_diff_of (last_scope cur : List (Change ChangeScope)) :
    List (Change ChangeScope) :=
  ((cur.enum).filter (fun p =>
    decide (last_scope.length ≤ p.1)
      || !((last_scope.getD p.1 (Change.Added dummyScope)).earlier.path
            == p.2.earlier.path))).map (·.2)

/-- `C3ProblemTokenizer._group_encode_changed_refs`: group by module, sort
by start line, interleave scope headers, then chunk each module stream. -/
def group_encode_changed_refs (cfg : C3ProblemTokenizer)
    (changes : List EncChangedSpan) : List TokenSeq :=
  (groupby_module changes).flatMap (fun grp =>
    let sorted := grp.2.insertionSort (fun a b => a.line_range.1 ≤ b.line_range.1)
    let mod_change := (sorted.headD dummyEncSpan).parent_scopes.take 1
    let ft := sorted.foldl
      (fun (acc : TokenSeq × List (Change ChangeScope)) c =>
        let sdiff := scope_diff_of acc.2 c.parent_scopes
        let header := if sdiff.isEmpty then [] else encode_parent_scopes cfg sdiff 0
        (acc.1 ++ header ++ encode_change c.change ++ [Newline_id, Newline_id],
          c.parent_scopes))
      ([], mod_change)
    break_into_chunks ft.1 (fun i => encode_parent_scopes cfg mod_change i)
      cfg.max_ref_tks cfg.ref_chunk_overlap)

/-- `_group_encode_unchanged_refs` delegates to the changed-refs encoder. -/
def group_encode_unchanged_refs (cfg : C3ProblemTokenizer)
    (changes : List EncChangedSpan) : List TokenSeq :=
  group_encode_changed_refs cfg changes

/-- `C3ProblemTokenizer._inline_some_context`: move context tokens into the
unused input budget; leftovers stay as separate above/below streams. -/
def inline_some_context (cfg : C3ProblemTokenizer)
    (input above_ctx below_ctx : TokenSeq) (size_limit : Nat) :
    TokenSeq × TokenSeq × TokenSeq :=
  let extra_space := size_limit - input.length
  if (above_ctx.isEmpty && below_ctx.isEmpty) || extra_space == 0 then
    (input, above_ctx, below_ctx)
  else
    let t := truncate_sections extra_space (above_ctx, .Left) (below_ctx, .Right)
    let above_left := above_ctx.length - t.1.length
    let above' :=
      if 0 < above_left then
        truncate_section above_ctx .Right (above_left + cfg.ref_chunk_overlap)
      else []
    let below_left := below_ctx.length - t.2.length
    let below' :=
      if 0 < below_left then
        truncate_section below_ctx .Left (below_left + cfg.ref_chunk_overlap)
      else []
    (t.1 ++ input ++ t.2, above', below')

/-- The `get_problem` closure of `tokenize_problem`: assemble one record
from the current chunk. -/
def mk_tk_problem (cfg : C3ProblemTokenizer) (span : EncChangedSpan)
    (problem_src : Option String)
    (named_references : List (String × TokenSeq)) (scope_tks : TokenSeq)
    (input_limit : Nat) (origin_lines : List TokenSeq) (l : Nat)
    (finished : Bool) (prev_change_tks chunk_input chunk_output : TokenSeq) :
    TkC3Problem :=
  let below_tks := List.intercalate [Newline_id] (origin_lines.drop l)
  let ctx := inline_some_context cfg chunk_input prev_change_tks below_tks
      input_limit
  let chunk_input := truncate_section ctx.1 .Right input_limit
  let chunk_output := truncate_output_tks chunk_input chunk_output
  let chunk_output := truncate_section chunk_output .Right cfg.max_output_tks
      false
  let above_chunks := break_into_chunks ctx.2.1
      (fun i => encode_parent_scopes cfg span.parent_scopes (-(1 + i : Int)))
      cfg.max_ref_tks cfg.ref_chunk_overlap true
  let below_chunks :=
    if finished then []
    else break_into_chunks ctx.2.2
      (fun i => encode_parent_scopes cfg span.parent_scopes ((i : Int) + 1))
      cfg.max_ref_tks cfg.ref_chunk_overlap
  let all_refs :=
    (above_chunks.enum.map (fun p => (s!"above chunk {p.1}", p.2)))
    ++ (below_chunks.enum.map (fun p => (s!"below chunk {p.1}", p.2)))
    ++ named_references
  ⟨scope_tks ++ chunk_input, chunk_output,
    (span.parent_scopes.getLastD (Change.Modified dummyScope dummyScope)).earlier.path,
    span.change.map (fun _ => ()),
    keep_refs cfg.max_total_ref_tks 0 all_refs, problem_src⟩

/-- The rolling state of the query-construction loop. -/
structure TokLoopState where
  chunk_start_l : Nat
  chunk_input : TokenSeq
  chunk_lines : Nat
  chunk_output : TokenSeq
  prev_change_tks : TokenSeq
  problems : List TkC3Problem

/-- One append step of the loop: add line `l` (with its `extra_id` marker)
to the current chunk's input and output. -/
def tok_append_step (origin_lines : List TokenSeq) (tk_delta : TkDelta)
    (l : Nat) (st : TokLoopState) : TokLoopState :=
  let line_change := List.intercalate [Newline_id] (tk_delta.deltas.getD l [])
  { st with
    chunk_input := st.chunk_input ++ [get_extra_id st.chunk_lines]
      ++ (if l < origin_lines.length then origin_lines.getD l [] ++ [Newline_id]
          else []),
    chunk_output := st.chunk_output ++ [get_extra_id st.chunk_lines]
      ++ line_change
      ++ (if !line_change.isEmpty && line_change.getLast? != some Del_id then
            [Newline_id]
          else []),
    chunk_lines := st.chunk_lines + 1 }

/-- The `input_growth` of one loop iteration: the cost of appending line
`l` (line tokens plus marker and newline) or, past the end, the marker. -/
def input_growth_at (origin_lines : List TokenSeq) (l : Nat) : Nat :=
  if l < origin_lines.length then (origin_lines.getD l []).length + 2 else 1

/-- The main loop of `tokenize_problem` over `l = 0 .. len(deltas)`:
close the chunk when full or finished (emitting a record when it contains
an edit, stopping at `max_chunks_per_elem`), then append the next line. -/
def tokenize_loop (cfg : C3ProblemTokenizer) (span : EncChangedSpan)
    (problem_src : Option String)
    (named_references : List (String × TokenSeq)) (scope_tks : TokenSeq)
    (input_limit : Nat) (origin_lines : List TokenSeq) (tk_delta : TkDelta) :
    Nat → Nat → TokLoopState → List TkC3Problem
  | 0, _, st => st.problems
  | fuel + 1, l, st =>
    let n := tk_delta.deltas.length
    let finished := l == n
    let input_growth := input_growth_at origin_lines l
    if finished || decide (cfg.max_lines_to_edit ≤ st.chunk_lines)
        || decide (input_limit < st.chunk_input.length + input_growth) then
      let emit := has_change st.chunk_output
      let problems' :=
        if emit then
          st.problems ++ [mk_tk_problem cfg span problem_src named_references
            scope_tks input_limit origin_lines l finished st.prev_change_tks
            st.chunk_input st.chunk_output]
        else st.problems
      if emit && decide (cfg.max_chunks_per_elem ≤ problems'.length) then
        problems'
      else if finished then problems'
      else
        let chunk_main_input := List.intercalate [Newline_id]
            ((origin_lines.drop st.chunk_start_l).take (l - st.chunk_start_l))
        let chunk_main_change := (tk_delta.for_input_range
            (st.chunk_start_l, l)).to_change_tks chunk_main_input
        let st' : TokLoopState :=
          ⟨l, [], 0, [],
            st.prev_change_tks ++ chunk_main_change ++ [Newline_id], problems'⟩
        tokenize_loop cfg span problem_src named_references scope_tks
          input_limit origin_lines tk_delta fuel (l + 1)
          (tok_append_step origin_lines tk_delta l st')
    else
      tokenize_loop cfg span problem_src named_references scope_tks
        input_limit origin_lines tk_delta fuel (l + 1)
        (tok_append_step origin_lines tk_delta l st)

/-- `C3ProblemTokenizer.tokenize_problem`. -/
def tokenize_problem (cfg : C3ProblemTokenizer) (problem : C3Problem) :
    List TkC3Problem :=
  let span := problem.span
  let named_references :=
    ((group_encode_changed_refs cfg problem.relevant_changes).enum.map
      (fun p => (s!"changed ref {p.1}", p.2)))
    ++ ((group_encode_unchanged_refs cfg problem.relevant_unchanged).enum.map
      (fun p => (s!"unchanged ref {p.1}", p.2)))
  let od := change_to_original_delta span.change
  let origin_lines := od.1.map encode_basic_line
  let tk_delta := od.2.to_tk_delta
  let scope_tks := encode_parent_scopes cfg span.parent_scopes 0
  let input_limit := cfg.max_query_tks - scope_tks.length
  tokenize_loop cfg span problem.src_info named_references scope_tks
    input_limit origin_lines tk_delta (tk_delta.deltas.length + 2) 0
    ⟨0, [], 0, [], [], []⟩

/-- The token-budget invariants claimed for every packed record. -/
def tk_budget_ok (cfg : C3ProblemTokenizer) (r : TkC3Problem) : Prop :=
  r.input_tks.length ≤ cfg.max_query_tks ∧
  r.output_tks.length ≤ cfg.max_output_tks ∧
  (∀ nr ∈ r.named_references, nr.2.length ≤ cfg.max_ref_tks) ∧
  (r.named_references.map (fun nr => nr.2.length)).sum ≤ cfg.max_total_ref_tks

/-- The default tokenizer configuration. -/
def c3witCfg : C3ProblemTokenizer := {}

/-- A placeholder record for `headD`. -/
def dummyTkProblem : TkC3Problem :=
  ⟨[], [], ⟨"", ""⟩, Change.Added (), [], none⟩

/-- The concrete record the default tokenizer emits for `problemB0`. -/
def c3wit_record : TkC3Problem :=
  (tokenize_problem c3witCfg problemB0).headD dummyTkProblem

theorem opsInput_map_ins {α : Type} (ys : List α) :
    opsInput (ys.map DiffOp.ins) = [] := by
  induction ys with
  | nil => rfl
  | cons y ys ih => simpa [opsInput] using ih

theorem opsOutput_map_ins {α : Type} (ys : List α) :
    opsOutput (ys.map DiffOp.ins) = ys := by
  induction ys with
  | nil => rfl
  | cons y ys ih => simpa [opsOutput] using ih

theorem opsInput_map_del {α : Type} (xs : List α) :
    opsInput (xs.map DiffOp.del) = xs := by
  induction xs with
  | nil => rfl
  | cons x xs ih => simpa [opsInput] using ih

theorem opsOutput_map_del {α : Type} (xs : List α) :
    opsOutput (xs.map DiffOp.del) = [] := by
  induction xs with
  | nil => rfl
  | cons x xs ih => simpa [opsOutput] using ih

theorem opsInput_diffOpsF {α : Type} [DecidableEq α] (fuel : Nat) :
    ∀ xs ys : List α, xs.length + ys.length ≤ fuel →
      opsInput (diffOpsF fuel xs ys) = xs := by
  induction fuel with
  | zero =>
    intro xs ys h
    match xs, ys with
    | [], ys => simp [diffOpsF, opsInput_map_ins]
    | x :: xs, [] => simp [diffOpsF, opsInput, opsInput_map_del]
    | x :: xs, y :: ys => simp at h
  | succ fuel ih =>
    intro xs ys h
    match xs, ys with
    | [], ys => simp [diffOpsF, opsInput_map_ins]
    | x :: xs, [] => simp [diffOpsF, opsInput, opsInput_map_del]
    | x :: xs, y :: ys =>
      simp only [diffOpsF]
      split
      · simp only [opsInput]
        rw [ih xs ys (by simp at h; omega)]
      · split
        · simp only [opsInput]
          rw [ih xs (y :: ys) (by simp at h ⊢; omega)]
        · simp only [opsInput]
          rw [ih (x :: xs) ys (by simp at h ⊢; omega)]

theorem opsOutput_diffOpsF {α : Type} [DecidableEq α] (fuel : Nat) :
    ∀ xs ys : List α, xs.length + ys.length ≤ fuel →
      opsOutput (diffOpsF fuel xs ys) = ys := by
  induction fuel with
  | zero =>
    intro xs ys h
    match xs, ys with
    | [], ys => simp [diffOpsF, opsOutput_map_ins]
    | x :: xs, [] => simp [diffOpsF, opsOutput, opsOutput_map_del]
    | x :: xs, y :: ys => simp at h
  | succ fuel ih =>
    intro xs ys h
    match xs, ys with
    | [], ys => simp [diffOpsF, opsOutput_map_ins]
    | x :: xs, [] => simp [diffOpsF, opsOutput, opsOutput_map_del]
    | x :: xs, y :: ys =>
      simp only [diffOpsF]
      split
      · rename_i hxy
        simp only [opsOutput]
        rw [ih xs ys (by simp at h; omega), hxy]
      · split
        · simp only [opsOutput]
          rw [ih xs (y :: ys) (by simp at h ⊢; omega)]
        · simp only [opsOutput]
          rw [ih (x :: xs) ys (by simp at h ⊢; omega)]

theorem opsInput_diffOps {α : Type} [DecidableEq α] (xs ys : List α) :
    opsInput (diffOps xs ys) = xs :=
  opsInput_diffOpsF _ xs ys (Nat.le_refl _)

theorem opsOutput_diffOps {α : Type} [DecidableEq α] (xs ys : List α) :
    opsOutput (diffOps xs ys) = ys :=
  opsOutput_diffOpsF _ xs ys (Nat.le_refl _)

theorem length_lineEdits_opsToDelta {α : Type} (ops : List (DiffOp α)) :
    (opsToDelta ops).lineEdits.length = (opsInput ops).length := by
  induction ops with
  | nil => rfl
  | cons op ops ih =>
    cases op with
    | keep a => simpa [opsToDelta, opsInput] using ih
    | del a => simpa [opsToDelta, opsInput] using ih
    | ins b =>
      simp only [opsToDelta, opsInput]
      cases h : (opsToDelta ops).lineEdits with
      | nil => simp_all
      | cons e rest => simp_all

theorem apply_opsToDelta {α : Type} (ops : List (DiffOp α)) :
    (opsToDelta ops).apply_to_input (opsInput ops) = opsOutput ops := by
  induction ops with
  | nil => rfl
  | cons op ops ih =>
    cases op with
    | keep a =>
      simp only [opsToDelta, opsInput, opsOutput, StrDelta.apply_to_input] at *
      simpa [applyEdits] using ih
    | del a =>
      simp only [opsToDelta, opsInput, opsOutput, StrDelta.apply_to_input] at *
      simpa [applyEdits] using ih
    | ins b =>
      simp only [opsToDelta, opsInput, opsOutput, StrDelta.apply_to_input] at *
      cases h : (opsToDelta ops).lineEdits with
      | nil =>
        have hlen := length_lineEdits_opsToDelta ops
        rw [h] at hlen
        have hin : opsInput ops = [] := List.eq_nil_of_length_eq_zero hlen.symm
        rw [h, hin] at ih
        simp only [applyEdits, List.nil_append] at ih
        simp [hin, applyEdits, ← ih]
      | cons e rest =>
        obtain ⟨ins0, d0⟩ := e
        have hlen := length_lineEdits_opsToDelta ops
        rw [h] at hlen
        cases hin : opsInput ops with
        | nil => rw [hin] at hlen; simp at hlen
        | cons x xs =>
          rw [h, hin] at ih
          simp only [applyEdits] at ih ⊢
          simp [← ih]

/-- Splitting `applyEdits` at an index where input and edits lengths agree. -/
theorem applyEdits_append {α : Type} (xs ys : List α)
    (es fs : List (List α × Bool)) (hlen : xs.length = es.length) :
    applyEdits (xs ++ ys) (es ++ fs) = applyEdits xs es ++ applyEdits ys fs := by
  induction xs generalizing es with
  | nil =>
    have : es = [] := List.eq_nil_of_length_eq_zero hlen.symm
    simp [this, applyEdits]
  | cons x xs ih =>
    cases es with
    | nil => simp at hlen
    | cons e es =>
      obtain ⟨ins0, d0⟩ := e
      simp [applyEdits, ih es (by simpa using hlen)]

/-- The round-trip at the level of line lists: applying the computed delta
to the original gives the new blob. -/
theorem apply_lineDelta {α : Type} [DecidableEq α] (a b : List α) :
    (lineDelta a b).apply_to_input a = b := by
  have h := apply_opsToDelta (diffOps a b)
  rw [opsInput_diffOps, opsOutput_diffOps] at h
  exact h

theorem length_lineEdits_lineDelta {α : Type} [DecidableEq α] (a b : List α) :
    (lineDelta a b).lineEdits.length = a.length := by
  have h := length_lineEdits_opsToDelta (diffOps a b)
  rwa [opsInput_diffOps] at h

/-- C4: for any two text blobs `a, b` (as line sequences), applying the line
delta computed between them to `a` yields `b`; and for any sub-range
`[lo, hi)` of `a`'s lines, applying the restricted sub-delta
`for_input_range (lo, hi)` to `a[lo:hi]` yields exactly the slice of `b`
corresponding to that range, i.e. the middle component in the canonical
decomposition of `b` into the part generated by lines before `lo`, the part
generated by lines in `[lo, hi)`, and the part generated by lines from `hi`
on (plus the tail additions). -/
theorem c4_delta_round_trip (a b : List String) (lo hi : Nat)
    (h1 : lo ≤ hi) (h2 : hi ≤ a.length) :
    (lineDelta a b).apply_to_input a = b ∧
    b = applyEdits (a.take lo) ((lineDelta a b).lineEdits.take lo)
        ++ ((lineDelta a b).for_input_range (lo, hi)).apply_to_input
             ((a.drop lo).take (hi - lo))
        ++ (applyEdits (a.drop hi) ((lineDelta a b).lineEdits.drop hi)
            ++ (lineDelta a b).tail) := by
  refine ⟨apply_lineDelta a b, ?_⟩
  have hlen : (lineDelta a b).lineEdits.length = a.length :=
    length_lineEdits_lineDelta a b
  have key : ∀ (xs : List String) (es : List (List String × Bool)) (k : Nat),
      xs.length = es.length →
      applyEdits xs es
        = applyEdits (xs.take k) (es.take k) ++ applyEdits (xs.drop k) (es.drop k) := by
    intro xs es k hl
    conv_lhs => rw [← List.take_append_drop k xs, ← List.take_append_drop k es]
    exact applyEdits_append _ _ _ _ (by simp [hl])
  have hsplit1 := key a (lineDelta a b).lineEdits lo hlen.symm
  have hsplit2 := key (a.drop lo) ((lineDelta a b).lineEdits.drop lo) (hi - lo)
    (by simp [hlen])
  have hdd1 : (a.drop lo).drop (hi - lo) = a.drop hi := by
    rw [List.drop_drop]
    congr 1
    omega
  have hdd2 : ((lineDelta a b).lineEdits.drop lo).drop (hi - lo)
      = (lineDelta a b).lineEdits.drop hi := by
    rw [List.drop_drop]
    congr 1
    omega
  have happly := (apply_lineDelta a b).symm
  simp only [StrDelta.apply_to_input] at happly
  rw [hdd1, hdd2] at hsplit2
  conv_lhs => rw [happly, hsplit1, hsplit2]
  simp [StrDelta.for_input_range, StrDelta.apply_to_input]

/-- Witness for C4 at a concrete input: `a = ["x","y","z"]`,
`b = ["x","w","z"]`, `[lo, hi) = [1, 2)`. -/
theorem c4_delta_round_trip_witness :
    (lineDelta ["x", "y", "z"] ["x", "w", "z"]).apply_to_input
        ["x", "y", "z"] = ["x", "w", "z"] ∧
    ["x", "w", "z"]
      = applyEdits (["x", "y", "z"].take 1)
          ((lineDelta ["x", "y", "z"] ["x", "w", "z"]).lineEdits.take 1)
        ++ ((lineDelta ["x", "y", "z"] ["x", "w", "z"]).for_input_range
              (1, 2)).apply_to_input
             ((["x", "y", "z"].drop 1).take (2 - 1))
        ++ (applyEdits (["x", "y", "z"].drop 2)
              ((lineDelta ["x", "y", "z"] ["x", "w", "z"]).lineEdits.drop 2)
            ++ (lineDelta ["x", "y", "z"] ["x", "w", "z"]).tail) :=
  c4_delta_round_trip ["x", "y", "z"] ["x", "w", "z"] 1 2
    (by decide) (by decide)

/-! ### Helper lemmas for the span differ -/

theorem nodup_flatMap_of_disjoint {α β : Type} (f : α → List β) (l : List α)
    (hn : ∀ x ∈ l, (f x).Nodup)
    (hd : l.Pairwise (fun a b => ∀ k, k ∈ f a → k ∈ f b → False)) :
    (l.flatMap f).Nodup := by
  induction l with
  | nil => simp
  | cons x xs ih =>
    simp only [List.flatMap_cons, List.nodup_append]
    rcases List.pairwise_cons.mp hd with ⟨hx, hxs⟩
    refine ⟨hn x (by simp), ih (fun y hy => hn y (by simp [hy])) hxs, ?_⟩
    intro k hk hk2
    rcases List.mem_flatMap.mp hk2 with ⟨y, hy, hky⟩
    exact hx y hy k hk hky

theorem pairwise_disjoint_of_nodup_flatMap {α β : Type} (f : α → List β) (l : List α)
    (h : (l.flatMap f).Nodup) :
    l.Pairwise (fun a b => ∀ k, k ∈ f a → k ∈ f b → False) := by
  induction l with
  | nil => simp
  | cons x xs ih =>
    simp only [List.flatMap_cons, List.nodup_append] at h
    obtain ⟨h1, h2, hdisj⟩ := h
    refine List.pairwise_cons.mpr ⟨?_, ih h2⟩
    intro b hb k hk1 hk2
    exact hdisj hk1 (List.mem_flatMap.mpr ⟨b, hb, hk2⟩)

theorem sublist_flatMap_of_forall {α β : Type} (f g : α → List β) (l : List α)
    (h : ∀ x ∈ l, (f x).Sublist (g x)) :
    (l.flatMap f).Sublist (l.flatMap g) := by
  induction l with
  | nil => simp
  | cons x xs ih =>
    simp only [List.flatMap_cons]
    exact List.Sublist.append (h x (by simp))
      (ih (fun y hy => h y (by simp [hy])))

theorem flatMap_mem_sublist {α β : Type} (f : α → List β) {x : α} {l : List α}
    (h : x ∈ l) : (f x).Sublist (l.flatMap f) := by
  induction l with
  | nil => simp at h
  | cons y ys ih =>
    simp only [List.flatMap_cons]
    rcases List.mem_cons.mp h with rfl | h
    · exact List.sublist_append_left _ _
    · exact (ih h).trans (List.sublist_append_right _ _)

theorem scopeSize_mem_toList :
    ∀ (subs : ScopeList), ∀ t ∈ subs.toList, scopeSize t ≤ scopeListSize subs
  | .nil, t, ht => by simp [ScopeList.toList] at ht
  | .cons h rest, t, ht => by
    simp only [ScopeList.toList, List.mem_cons] at ht
    rcases ht with rfl | ht
    · simp only [scopeListSize]
      omega
    · have := scopeSize_mem_toList rest t ht
      simp only [scopeListSize]
      omega

theorem scopeSize_lt_of_mem_subscopes {t s : ChangeScope}
    (h : t ∈ s.subscopes) : scopeSize t < scopeSize s := by
  cases s with
  | mk p k hr hc sp subs =>
    have := scopeSize_mem_toList subs t h
    simp [scopeSize]
    omega

theorem allScopesL_eq :
    ∀ (subs : ScopeList), allScopesL subs = subs.toList.flatMap allScopes
  | .nil => by simp [allScopesL, ScopeList.toList]
  | .cons t rest => by
    simp [allScopesL, ScopeList.toList, allScopesL_eq rest]

theorem allScopes_unfold (s : ChangeScope) :
    allScopes s = s :: s.subscopes.flatMap allScopes := by
  cases s with
  | mk p k hr hc sp subs =>
    simp [allScopes, allScopesL_eq, ChangeScope.subscopes]

theorem self_mem_allScopes (s : ChangeScope) : s ∈ allScopes s := by
  rw [allScopes_unfold]
  simp

theorem allScopes_sublist_of_mem {t s : ChangeScope} (h : t ∈ s.subscopes) :
    (allScopes t).Sublist (allScopes s) := by
  conv_rhs => rw [allScopes_unfold]
  exact (flatMap_mem_sublist allScopes h).trans (List.sublist_cons_self _ _)

theorem allPaths_unfold (s : ChangeScope) :
    allPaths s = s.path :: s.subscopes.flatMap allPaths := by
  show (allScopes s).map (·.path) = _
  rw [allScopes_unfold, List.map_cons, List.map_flatMap]
  rfl

theorem WFScope_of_mem_subscopes {s t : ChangeScope}
    (hwf : WFScope s) (h : t ∈ s.subscopes) : WFScope t := by
  obtain ⟨hp, hsp⟩ := hwf
  refine ⟨List.Nodup.sublist ?_ hp, ?_⟩
  · exact (allScopes_sublist_of_mem h).map _
  · intro u hu
    exact hsp u ((allScopes_sublist_of_mem h).subset hu)

theorem pairwise_drel_subscopes {s : ChangeScope} (hwf : WFScope s) :
    s.subscopes.Pairwise
      (fun a b => ∀ p, p ∈ allPaths a → p ∈ allPaths b → False) := by
  have hp := hwf.1
  rw [allPaths_unfold] at hp
  exact pairwise_disjoint_of_nodup_flatMap _ _ (List.nodup_cons.mp hp).2

theorem head_path_notin_subscopes {s t : ChangeScope} (hwf : WFScope s)
    (h : t ∈ s.subscopes) {p : ProjectPath} (hp : p ∈ allPaths t) :
    p ≠ s.path := by
  intro hps
  have hnp := hwf.1
  rw [allPaths_unfold] at hnp
  exact (List.nodup_cons.mp hnp).1
    (List.mem_flatMap.mpr ⟨t, h, hps ▸ hp⟩)

theorem path_mem_allPaths_of_mem {t s : ChangeScope} (h : t ∈ s.subscopes) :
    ∀ p ∈ allPaths t, p ∈ allPaths s := by
  intro p hp
  rw [allPaths_unfold]
  exact List.mem_cons.mpr (Or.inr (List.mem_flatMap.mpr ⟨t, h, hp⟩))

theorem mem_get_named_changes {olds news : List ChangeScope}
    {c : Change ChangeScope} (h : c ∈ get_named_changes olds news) :
    (∃ o ∈ olds, ∃ n ∈ news, n.path = o.path ∧ c = .Modified o n)
      ∨ (∃ o ∈ olds, c = .Deleted o)
      ∨ (∃ n ∈ news, (∀ o ∈ olds, o.path ≠ n.path) ∧ c = .Added n) := by
  simp only [get_named_changes, List.mem_append, List.mem_map,
    List.mem_filter] at h
  rcases h with ⟨o, ho, hc⟩ | ⟨n, ⟨hn, hq⟩, hc⟩
  · rcases hfind : olds.find? (fun _ => false) with _ | _
    · clear hfind
      rcases hfind2 : news.find? (fun n' => n'.path == o.path) with _ | n'
      · rw [hfind2] at hc
        exact Or.inr (Or.inl ⟨o, ho, hc.symm⟩)
      · rw [hfind2] at hc
        refine Or.inl ⟨o, ho, n', List.mem_of_find?_eq_some hfind2, ?_, hc.symm⟩
        have := List.find?_some hfind2
        simpa using this
    · clear hfind
      rcases hfind2 : news.find? (fun n' => n'.path == o.path) with _ | n'
      · rw [hfind2] at hc
        exact Or.inr (Or.inl ⟨o, ho, hc.symm⟩)
      · rw [hfind2] at hc
        refine Or.inl ⟨o, ho, n', List.mem_of_find?_eq_some hfind2, ?_, hc.symm⟩
        have := List.find?_some hfind2
        simpa using this
  · refine Or.inr (Or.inr ⟨n, hn, ?_, hc.symm⟩)
    intro o ho
    have := List.all_eq_true.mp hq o ho
    simpa using this

theorem path_self_mem (s : ChangeScope) : s.path ∈ allPaths s := by
  rw [allPaths_unfold]
  simp

theorem subscopes_drel_forall {s : ChangeScope} (hwf : WFScope s)
    {a b : ChangeScope} (ha : a ∈ s.subscopes) (hb : b ∈ s.subscopes)
    (hne : a ≠ b) :
    ∀ p, p ∈ allPaths a → p ∈ allPaths b → False := by
  have hsym : Symmetric (fun a b : ChangeScope =>
      ∀ p, p ∈ allPaths a → p ∈ allPaths b → False) :=
    fun a b h p hpb hpa => h p hpa hpb
  exact (pairwise_drel_subscopes hwf).forall hsym ha hb hne

theorem path_ne_of_drel {a b : ChangeScope}
    (h : ∀ p, p ∈ allPaths a → p ∈ allPaths b → False) : a.path ≠ b.path := by
  intro he
  exact h a.path (path_self_mem a) (he ▸ path_self_mem b)

theorem subscopes_drel_of_path_ne {s : ChangeScope} (hwf : WFScope s)
    {a b : ChangeScope} (ha : a ∈ s.subscopes) (hb : b ∈ s.subscopes)
    (hne : a.path ≠ b.path) :
    ∀ p, p ∈ allPaths a → p ∈ allPaths b → False :=
  subscopes_drel_forall hwf ha hb (fun he => hne (he ▸ rfl))

theorem candKeys_in :
    ∀ (fuel : Nat) (c : Change ChangeScope), ∀ k ∈ candKeys fuel c, spanKeyIn k c := by
  intro fuel
  induction fuel with
  | zero =>
    intro c k hk
    simp [candKeys] at hk
  | succ fuel ih =>
    intro c k hk
    match c with
    | .Modified o n =>
      simp only [candKeys, List.mem_append, List.mem_map, List.mem_flatMap] at hk
      rcases hk with ⟨sp, _, rfl⟩ | ⟨c', hc', hk⟩
      · simp only [spanKeyIn]
        exact Or.inl ⟨Or.inl (by trivial), path_self_mem o⟩
      · have hin := ih c' k hk
        rcases mem_get_named_changes hc' with
          ⟨o', ho', n', hn', _, rfl⟩ | ⟨o', ho', rfl⟩ | ⟨n', hn', _, rfl⟩
        · simp only [spanKeyIn] at hin ⊢
          rcases hin with ⟨hch, hp⟩ | ⟨hch, hp⟩
          · exact Or.inl ⟨hch, path_mem_allPaths_of_mem ho' _ hp⟩
          · exact Or.inr ⟨hch, path_mem_allPaths_of_mem hn' _ hp⟩
        · simp only [spanKeyIn] at hin ⊢
          exact Or.inl ⟨Or.inr hin.1, path_mem_allPaths_of_mem ho' _ hin.2⟩
        · simp only [spanKeyIn] at hin ⊢
          exact Or.inr ⟨hin.1, path_mem_allPaths_of_mem hn' _ hin.2⟩
    | .Added s =>
      simp only [candKeys, List.mem_append, List.mem_map, List.mem_flatMap] at hk
      rcases hk with ⟨sp, _, rfl⟩ | ⟨t, ht, hk⟩
      · exact ⟨rfl, path_self_mem s⟩
      · have hin := ih (.Added t) k hk
        simp only [spanKeyIn] at hin ⊢
        exact ⟨hin.1, path_mem_allPaths_of_mem ht _ hin.2⟩
    | .Deleted s =>
      simp only [candKeys, List.mem_append, List.mem_map, List.mem_flatMap] at hk
      rcases hk with ⟨sp, _, rfl⟩ | ⟨t, ht, hk⟩
      · exact ⟨rfl, path_self_mem s⟩
      · have hin := ih (.Deleted t) k hk
        simp only [spanKeyIn] at hin ⊢
        exact ⟨hin.1, path_mem_allPaths_of_mem ht _ hin.2⟩

theorem old_branch_key {n : ChangeScope} {o' : ChangeScope} {fuel : Nat}
    {k : Char × ProjectPath × (Nat × Nat)}
    (hk : k ∈ candKeys fuel
      (match (n.subscopes).find? (fun n' => n'.path == o'.path) with
       | some n' => Change.Modified o' n'
       | none => Change.Deleted o')) :
    ((k.1 = 'M' ∨ k.1 = 'D') ∧ k.2.1 ∈ allPaths o')
    ∨ (k.1 = 'A' ∧ ∃ t ∈ n.subscopes, t.path = o'.path ∧ k.2.1 ∈ allPaths t) := by
  rcases hfind : (n.subscopes).find? (fun n' => n'.path == o'.path) with _ | t
  · rw [hfind] at hk
    have hin := candKeys_in fuel (.Deleted o') k hk
    simp only [spanKeyIn] at hin
    exact Or.inl ⟨Or.inr hin.1, hin.2⟩
  · rw [hfind] at hk
    have hin := candKeys_in fuel (.Modified o' t) k hk
    simp only [spanKeyIn] at hin
    rcases hin with ⟨hch, hp⟩ | ⟨hch, hp⟩
    · exact Or.inl ⟨hch, hp⟩
    · refine Or.inr ⟨hch, t, List.mem_of_find?_eq_some hfind, ?_, hp⟩
      have := List.find?_some hfind
      simpa using this

theorem decorated_spans_nodup {s : ChangeScope} (hwf : WFScope s) (ch : Char) :
    (s.spans.map (fun sp => (ch, s.path, sp.line_range))).Nodup := by
  have hr := hwf.2 s (self_mem_allScopes s)
  have heq : s.spans.map (fun sp => (ch, s.path, sp.line_range))
      = (s.spans.map (·.line_range)).map (fun r => (ch, s.path, r)) := by
    rw [List.map_map]
    rfl
  rw [heq]
  exact List.Nodup.map (fun r1 r2 h => by simpa using h) hr

theorem candKeys_nodup :
    ∀ (fuel : Nat) (c : Change ChangeScope),
      changeScopeFuel c < fuel → WFScopeChange c → (candKeys fuel c).Nodup := by
  intro fuel
  induction fuel with
  | zero =>
    intro c h _
    exact absurd h (Nat.not_lt_zero _)
  | succ fuel ih =>
    intro c hfuel hwf
    match c with
    | .Added s =>
      have hwfs : WFScope s := hwf
      simp only [candKeys]
      rw [List.nodup_append]
      refine ⟨decorated_spans_nodup hwfs 'A', ?_, ?_⟩
      · apply nodup_flatMap_of_disjoint
        · intro t ht
          refine ih (.Added t) ?_ (WFScope_of_mem_subscopes hwfs ht)
          have := scopeSize_lt_of_mem_subscopes ht
          simp only [changeScopeFuel] at hfuel ⊢
          omega
        · refine (pairwise_drel_subscopes hwfs).imp_of_mem ?_
          intro a b _ _ hrel k hk1 hk2
          have h1 := candKeys_in fuel (.Added a) k hk1
          have h2 := candKeys_in fuel (.Added b) k hk2
          simp only [spanKeyIn] at h1 h2
          exact hrel k.2.1 h1.2 h2.2
      · intro k hk1 hk2
        rcases List.mem_map.mp hk1 with ⟨sp, _, rfl⟩
        rcases List.mem_flatMap.mp hk2 with ⟨t, ht, hkt⟩
        have h2 := candKeys_in fuel (.Added t) _ hkt
        simp only [spanKeyIn] at h2
        exact head_path_notin_subscopes hwfs ht h2.2 rfl
    | .Deleted s =>
      have hwfs : WFScope s := hwf
      simp only [candKeys]
      rw [List.nodup_append]
      refine ⟨decorated_spans_nodup hwfs 'D', ?_, ?_⟩
      · apply nodup_flatMap_of_disjoint
        · intro t ht
          refine ih (.Deleted t) ?_ (WFScope_of_mem_subscopes hwfs ht)
          have := scopeSize_lt_of_mem_subscopes ht
          simp only [changeScopeFuel] at hfuel ⊢
          omega
        · refine (pairwise_drel_subscopes hwfs).imp_of_mem ?_
          intro a b _ _ hrel k hk1 hk2
          have h1 := candKeys_in fuel (.Deleted a) k hk1
          have h2 := candKeys_in fuel (.Deleted b) k hk2
          simp only [spanKeyIn] at h1 h2
          exact hrel k.2.1 h1.2 h2.2
      · intro k hk1 hk2
        rcases List.mem_map.mp hk1 with ⟨sp, _, rfl⟩
        rcases List.mem_flatMap.mp hk2 with ⟨t, ht, hkt⟩
        have h2 := candKeys_in fuel (.Deleted t) _ hkt
        simp only [spanKeyIn] at h2
        exact head_path_notin_subscopes hwfs ht h2.2 rfl
    | .Modified o n =>
      obtain ⟨hwfo, hwfn⟩ := hwf
      simp only [candKeys]
      rw [List.nodup_append]
      refine ⟨decorated_spans_nodup hwfo 'M', ?_, ?_⟩
      · apply nodup_flatMap_of_disjoint
        · intro c' hc'
          rcases mem_get_named_changes hc' with
            ⟨o', ho', n', hn', _, rfl⟩ | ⟨o', ho', rfl⟩ | ⟨n', hn', _, rfl⟩
          · refine ih (.Modified o' n') ?_
              ⟨WFScope_of_mem_subscopes hwfo ho', WFScope_of_mem_subscopes hwfn hn'⟩
            have h1 := scopeSize_lt_of_mem_subscopes ho'
            have h2 := scopeSize_lt_of_mem_subscopes hn'
            simp only [changeScopeFuel] at hfuel ⊢
            omega
          · refine ih (.Deleted o') ?_ (WFScope_of_mem_subscopes hwfo ho')
            have h1 := scopeSize_lt_of_mem_subscopes ho'
            simp only [changeScopeFuel] at hfuel ⊢
            omega
          · refine ih (.Added n') ?_ (WFScope_of_mem_subscopes hwfn hn')
            have h1 := scopeSize_lt_of_mem_subscopes hn'
            simp only [changeScopeFuel] at hfuel ⊢
            omega
        · simp only [get_named_changes]
          rw [List.pairwise_append]
          refine ⟨?_, ?_, ?_⟩
          · rw [List.pairwise_map]
            refine (pairwise_drel_subscopes hwfo).imp_of_mem ?_
            intro o₁ o₂ _ _ hrel k hk1 hk2
            have K1 := @old_branch_key n o₁ fuel k hk1
            have K2 := @old_branch_key n o₂ fuel k hk2
            rcases K1 with ⟨hch1, hp1⟩ | ⟨hch1, t₁, ht₁, htp₁, hp1⟩
            · rcases K2 with ⟨hch2, hp2⟩ | ⟨hch2, t₂, ht₂, htp₂, hp2⟩
              · exact hrel k.2.1 hp1 hp2
              · rcases hch1 with h | h <;> rw [h] at hch2 <;>
                  exact absurd hch2 (by decide)
            · rcases K2 with ⟨hch2, hp2⟩ | ⟨hch2, t₂, ht₂, htp₂, hp2⟩
              · rcases hch2 with h | h <;> rw [h] at hch1 <;>
                  exact absurd hch1 (by decide)
              · have hne : t₁.path ≠ t₂.path := by
                  rw [htp₁, htp₂]
                  exact path_ne_of_drel hrel
                exact subscopes_drel_of_path_ne hwfn ht₁ ht₂ hne k.2.1 hp1 hp2
          · rw [List.pairwise_map]
            refine (List.Pairwise.filter _ (pairwise_drel_subscopes hwfn)).imp_of_mem ?_
            intro n₁ n₂ _ _ hrel k hk1 hk2
            have K1 := candKeys_in fuel (.Added n₁) k hk1
            have K2 := candKeys_in fuel (.Added n₂) k hk2
            simp only [spanKeyIn] at K1 K2
            exact hrel k.2.1 K1.2 K2.2
          · intro x hx y hy k hk1 hk2
            rcases List.mem_map.mp hx with ⟨o', ho', rfl⟩
            rcases List.mem_map.mp hy with ⟨n', hn', rfl⟩
            have hn'mem := (List.mem_filter.mp hn').1
            have hq := (List.mem_filter.mp hn').2
            have hq' : ∀ o'' ∈ o.subscopes, o''.path ≠ n'.path := by
              intro o'' ho''
              have := List.all_eq_true.mp hq o'' ho''
              simpa using this
            have K1 := @old_branch_key n o' fuel k hk1
            have K2 := candKeys_in fuel (.Added n') k hk2
            simp only [spanKeyIn] at K2
            rcases K1 with ⟨hch1, hp1⟩ | ⟨hch1, t, ht, htp, hp1⟩
            · rcases hch1 with h | h <;> rw [h] at K2 <;>
                exact absurd K2.1 (by simp)
            · have hne : t.path ≠ n'.path := by
                rw [htp]
                exact hq' o' ho'
              exact subscopes_drel_of_path_ne hwfn ht hn'mem hne k.2.1 hp1 K2.2
      · intro k hk1 hk2
        rcases List.mem_map.mp hk1 with ⟨sp, _, rfl⟩
        rcases List.mem_flatMap.mp hk2 with ⟨c', hc', hkc⟩
        rcases mem_get_named_changes hc' with
          ⟨o', ho', n', hn', _, rfl⟩ | ⟨o', ho', rfl⟩ | ⟨n', hn', _, rfl⟩
        · have h2 := candKeys_in fuel (.Modified o' n') _ hkc
          simp only [spanKeyIn] at h2
          rcases h2 with ⟨_, hp⟩ | ⟨hch, _⟩
          · exact head_path_notin_subscopes hwfo ho' hp rfl
          · exact absurd hch (by decide)
        · have h2 := candKeys_in fuel (.Deleted o') _ hkc
          simp only [spanKeyIn] at h2
          exact absurd h2.1 (by decide)
        · have h2 := candKeys_in fuel (.Added n') _ hkc
          simp only [spanKeyIn] at h2
          exact absurd h2.1 (by decide)

theorem go_keys_sublist (δ : StrDelta String) (o n : ChangeScope) :
    ∀ (sps : List StatementSpan) (line : Nat),
      ((get_modified_spans_go δ o n sps line).map spanKey).Sublist
        (sps.map (fun sp => ('M', o.path, sp.line_range))) := by
  intro sps
  induction sps with
  | nil =>
    intro line
    simp [get_modified_spans_go]
  | cons sp rest ih =>
    intro line
    simp only [get_modified_spans_go, List.map_append, List.map_cons]
    split
    · simp only [List.map_cons, List.map_nil, List.singleton_append,
        List.cons_append, List.nil_append]
      have hk : spanKey
          ⟨Change.Modified sp.code
            ((δ.for_input_range (line, line + sp.code.length)).apply_to_input sp.code),
            Change.Modified o n, sp.line_range⟩
          = ('M', o.path, sp.line_range) := rfl
      rw [hk]
      exact List.Sublist.cons₂ _ (ih _)
    · simp only [List.map_nil, List.nil_append]
      exact (ih _).cons _

theorem rec_keys_sublist :
    ∀ (fuel : Nat) (c : Change ChangeScope),
      ((get_changed_spans_rec fuel c).map spanKey).Sublist (candKeys fuel c) := by
  intro fuel
  induction fuel with
  | zero =>
    intro c
    simp [get_changed_spans_rec, candKeys]
  | succ fuel ih =>
    intro c
    match c with
    | .Modified o n =>
      simp only [get_changed_spans_rec, candKeys, List.map_append]
      refine List.Sublist.append ?_ ?_
      · rw [get_modified_spans]
        split
        · simp
        · exact go_keys_sublist _ o n o.spans 0
      · rw [List.map_flatMap]
        exact sublist_flatMap_of_forall _ _ _ (fun c' _ => ih c')
    | .Added s =>
      simp only [get_changed_spans_rec, candKeys, List.map_append]
      refine List.Sublist.append ?_ ?_
      · rw [List.map_map]
        exact List.Sublist.refl _
      · rw [List.map_flatMap]
        exact sublist_flatMap_of_forall _ _ _ (fun t _ => ih (.Added t))
    | .Deleted s =>
      simp only [get_changed_spans_rec, candKeys, List.map_append]
      refine List.Sublist.append ?_ ?_
      · rw [List.map_map]
        exact List.Sublist.refl _
      · rw [List.map_flatMap]
        exact sublist_flatMap_of_forall _ _ _ (fun t _ => ih (.Deleted t))

/-- C5: for every `Change[ChangeScope]` input, the list of `ChangedSpan`s
returned by `get_changed_spans` is sorted in nondecreasing order of
`line_range` start; and (under the scope-tree well-formedness invariants
guaranteed by the scope tree builder: pairwise distinct scope paths and
pairwise distinct span line ranges within each scope) it contains no
duplicate entries. -/
theorem c5_changed_spans_sorted_nodup (c : Change ChangeScope) :
    List.Sorted (fun s t : ChangedSpan => s.line_range.1 ≤ t.line_range.1)
      (get_changed_spans c)
    ∧ (WFScopeChange c → (get_changed_spans c).Nodup) := by
  constructor
  · haveI : IsTotal ChangedSpan (fun s t => s.line_range.1 ≤ t.line_range.1) :=
      ⟨fun a b => Nat.le_total _ _⟩
    haveI : IsTrans ChangedSpan (fun s t => s.line_range.1 ≤ t.line_range.1) :=
      ⟨fun a b c hab hbc => Nat.le_trans hab hbc⟩
    exact List.sorted_insertionSort _ _
  · intro hwf
    have hnk := candKeys_nodup (changeScopeFuel c + 1) c (Nat.lt_succ_self _) hwf
    have hsub := rec_keys_sublist (changeScopeFuel c + 1) c
    have hrec : (get_changed_spans_rec (changeScopeFuel c + 1) c).Nodup :=
      List.Nodup.of_map spanKey (hsub.nodup hnk)
    exact (List.perm_insertionSort _ _).symm.nodup hrec

/-- Witness for C5 at a concrete one-module scope change. -/
theorem c5_changed_spans_sorted_nodup_witness :
    List.Sorted (fun s t : ChangedSpan => s.line_range.1 ≤ t.line_range.1)
      (get_changed_spans (Change.Modified
        (ChangeScope.mk ⟨"m", ""⟩ .moduleKind (1, 1) [] [⟨[["x = 1"]], 1, 2⟩] .nil)
        (ChangeScope.mk ⟨"m", ""⟩ .moduleKind (1, 1) [] [⟨[["x = 2"]], 1, 2⟩] .nil)))
    ∧ (get_changed_spans (Change.Modified
        (ChangeScope.mk ⟨"m", ""⟩ .moduleKind (1, 1) [] [⟨[["x = 1"]], 1, 2⟩] .nil)
        (ChangeScope.mk ⟨"m", ""⟩ .moduleKind (1, 1) [] [⟨[["x = 2"]], 1, 2⟩] .nil))).Nodup :=
  ⟨(c5_changed_spans_sorted_nodup _).1,
   (c5_changed_spans_sorted_nodup _).2 ⟨⟨by decide, by decide⟩, by decide, by decide⟩⟩

/-! ### The generator loop -/

theorem gen_problems_append (bm : List JModuleV)
    (mu : List (ModuleName × LineUsageAnalysis)) (ci : Option String)
    (tr : Bool) :
    ∀ (xs ys processed : List EncChangedSpan),
      gen_problems bm mu ci tr (xs ++ ys) processed
        = gen_problems bm mu ci tr xs processed
          ++ gen_problems bm mu ci tr ys (processed ++ xs) := by
  intro xs
  induction xs with
  | nil =>
    intro ys processed
    simp [gen_problems]
  | cons s rest ih =>
    intro ys processed
    simp only [List.cons_append, gen_problems, List.append_eq]
    rw [ih ys (processed ++ [s])]
    simp [List.append_assoc]

theorem process_spans_ok_spec (bm : List JModuleV)
    (mu : List (ModuleName × LineUsageAnalysis)) (ci : Option String)
    (tr : Bool) :
    ∀ (spans processed : List EncChangedSpan) (probs : List C3Problem) out,
      process_spans bm mu ci tr spans processed probs = .ok out →
      out.1 = processed ++ spans ∧
      out.2 = probs ++ gen_problems bm mu ci tr spans processed ∧
      ∀ s ∈ spans, should_make_problem tr s = true →
        lookup_usage_map mu s.path.module ≠ none := by
  intro spans
  induction spans with
  | nil =>
    intro processed probs out h
    simp only [process_spans, Except.ok.injEq] at h
    subst h
    simp [gen_problems]
  | cons s rest ih =>
    intro processed probs out h
    simp only [process_spans] at h
    split at h
    · rename_i hshould
      cases hlu : lookup_usage_map mu s.path.module with
      | none =>
        rw [hlu] at h
        exact absurd h (by simp)
      | some lu =>
        rw [hlu] at h
        obtain ⟨h1, h2, h3⟩ := ih _ _ _ h
        refine ⟨by rw [h1]; simp, ?_, ?_⟩
        · rw [h2]
          simp [gen_problems, hshould, hlu, List.append_assoc]
        · intro s' hs' hsh
          rcases List.mem_cons.mp hs' with rfl | hs'
          · rw [hlu]
            simp
          · exact h3 s' hs' hsh
    · rename_i hshould
      obtain ⟨h1, h2, h3⟩ := ih _ _ _ h
      refine ⟨by rw [h1]; simp, ?_, ?_⟩
      · rw [h2]
        simp [gen_problems, hshould]
      · intro s' hs' hsh
        rcases List.mem_cons.mp hs' with rfl | hs'
        · exact absurd hsh hshould
        · exact h3 s' hs' hsh

theorem process_modules_ok_spec (pc : JProjectChangeE)
    (mu : List (ModuleName × LineUsageAnalysis)) (tr : Bool) :
    ∀ (order : List ModuleName) (processed : List EncChangedSpan)
      (probs : List C3Problem) out,
      process_modules pc mu tr order processed probs = .ok out →
      out.1 = processed ++ considered_spans pc order ∧
      out.2 = probs ++ gen_problems pc.all_modules_before mu pc.commit_info tr
          (considered_spans pc order) processed ∧
      ∀ s ∈ considered_spans pc order, should_make_problem tr s = true →
        lookup_usage_map mu s.path.module ≠ none := by
  intro order
  induction order with
  | nil =>
    intro processed probs out h
    simp only [process_modules, Except.ok.injEq] at h
    subst h
    simp [considered_spans, gen_problems]
  | cons m ms ih =>
    intro processed probs out h
    simp only [process_modules] at h
    cases hf : pc.changed.find? (fun e => e.1 == m) with
    | none =>
      rw [hf] at h
      obtain ⟨h1, h2, h3⟩ := ih _ _ _ h
      have hc : considered_spans pc (m :: ms) = considered_spans pc ms := by
        simp [considered_spans, List.flatMap_cons, hf]
      rw [hc]
      exact ⟨h1, h2, h3⟩
    | some e =>
      rw [hf] at h
      dsimp only at h
      cases hps : process_spans pc.all_modules_before mu pc.commit_info tr
          (e.2.changed.map (·.2)) processed probs with
      | error msg =>
        rw [hps] at h
        exact absurd h (by simp)
      | ok out1 =>
        rw [hps] at h
        obtain ⟨g1, g2, g3⟩ := process_spans_ok_spec _ _ _ _ _ _ _ _ hps
        obtain ⟨h1, h2, h3⟩ := ih _ _ _ h
        have hc : considered_spans pc (m :: ms)
            = e.2.changed.map (·.2) ++ considered_spans pc ms := by
          simp [considered_spans, List.flatMap_cons, hf]
        refine ⟨?_, ?_, ?_⟩
        · rw [hc, h1, g1, List.append_assoc]
        · rw [hc, h2, g2, gen_problems_append, g1, List.append_assoc]
        · intro s hs hsh
          rw [hc] at hs
          rcases List.mem_append.mp hs with hs | hs
          · exact g3 s hs hsh
          · exact h3 s hs hsh

theorem process_change_ok_spec (pc : JProjectChangeE)
    (mu : List (ModuleName × LineUsageAnalysis)) (order : List ModuleName)
    (tr : Bool) (probs : List C3Problem)
    (h : process_change pc mu order tr = .ok probs) :
    probs = gen_problems pc.all_modules_before mu pc.commit_info tr
        (considered_spans pc order) [] ∧
    ∀ s ∈ considered_spans pc order, should_make_problem tr s = true →
      lookup_usage_map mu s.path.module ≠ none := by
  simp only [process_change] at h
  cases hpm : process_modules pc mu tr order [] [] with
  | error msg =>
    rw [hpm] at h
    exact absurd h (by simp)
  | ok out =>
    rw [hpm] at h
    obtain ⟨h1, h2, h3⟩ := process_modules_ok_spec _ _ _ _ _ _ _ hpm
    simp only [Except.ok.injEq] at h
    subst h
    exact ⟨by rw [h2]; simp, h3⟩

theorem mem_gen_problems (bm : List JModuleV)
    (mu : List (ModuleName × LineUsageAnalysis)) (ci : Option String)
    (tr : Bool) :
    ∀ (spans processed : List EncChangedSpan) (p : C3Problem),
      p ∈ gen_problems bm mu ci tr spans processed →
      ∃ pre suf, spans = pre ++ p.span :: suf
        ∧ should_make_problem tr p.span = true
        ∧ p.relevant_changes = (processed ++ pre).reverse
        ∧ (∃ lu, lookup_usage_map mu p.span.path.module = some lu
            ∧ p.relevant_unchanged = get_relevant_unchanged (get_def_spans bm)
                lu p.span p.relevant_changes)
        ∧ p.src_info = ci := by
  intro spans
  induction spans with
  | nil =>
    intro processed p hp
    simp [gen_problems] at hp
  | cons s rest ih =>
    intro processed p hp
    simp only [gen_problems, List.mem_append] at hp
    rcases hp with hp | hp
    · split at hp
      · rename_i hshould
        cases hlu : lookup_usage_map mu s.path.module with
        | none =>
          rw [hlu] at hp
          simp at hp
        | some lu =>
          rw [hlu] at hp
          simp only [List.mem_singleton] at hp
          subst hp
          exact ⟨[], rest, by simp, hshould, by simp,
            ⟨lu, hlu, by simp⟩, rfl⟩
      · simp at hp
    · obtain ⟨pre, suf, hsp, hsh, hrc, hru, hsi⟩ := ih _ _ hp
      refine ⟨s :: pre, suf, by rw [hsp]; simp, hsh, ?_, hru, hsi⟩
      rw [hrc]
      simp

theorem gen_problems_complete (bm : List JModuleV)
    (mu : List (ModuleName × LineUsageAnalysis)) (ci : Option String)
    (tr : Bool) :
    ∀ (spans processed : List EncChangedSpan) (s : EncChangedSpan),
      s ∈ spans → should_make_problem tr s = true →
      lookup_usage_map mu s.path.module ≠ none →
      ∃ p ∈ gen_problems bm mu ci tr spans processed, p.span = s := by
  intro spans
  induction spans with
  | nil =>
    intro processed s hs
    simp at hs
  | cons s' rest ih =>
    intro processed s hs hsh hlu
    rcases List.mem_cons.mp hs with rfl | hs
    · cases hlus : lookup_usage_map mu s.path.module with
      | none => exact absurd hlus hlu
      | some lu =>
        refine ⟨⟨s, processed.reverse,
          get_relevant_unchanged (get_def_spans bm) lu s processed.reverse,
          ci⟩, ?_, rfl⟩
        simp only [gen_problems, List.mem_append]
        exact Or.inl (by rw [hsh, hlus]; simp)
    · obtain ⟨p, hp, hps⟩ := ih (processed ++ [s']) s hs hsh hlu
      exact ⟨p, by simp only [gen_problems, List.mem_append]; exact Or.inr hp,
        hps⟩

theorem as_char_eq_M_iff {α : Type} (c : Change α) :
    c.as_char = 'M' ↔ ∃ b a, c = Change.Modified b a := by
  cases c <;> simp [Change.as_char]

/-- C1: during `process_change`, a C3Problem is emitted for a considered
span iff the span's change is `Modified` and either the generator is in
training mode or the span's innermost parent scope is a function body; in
particular, in eval (non-training) mode every emitted problem has a
`Modified` change whose innermost parent is a function. -/
theorem c1_problem_gating (pc : JProjectChangeE)
    (mu : List (ModuleName × LineUsageAnalysis)) (order : List ModuleName)
    (tr : Bool) (probs : List C3Problem)
    (hok : process_change pc mu order tr = .ok probs) :
    (∀ s : EncChangedSpan,
      (∃ p ∈ probs, p.span = s) ↔
        (s ∈ considered_spans pc order
          ∧ (∃ before after, s.change = Change.Modified before after)
          ∧ (tr = true ∨ s.is_func_body = true)))
    ∧ (tr = false → ∀ p ∈ probs,
        (∃ before after, p.span.change = Change.Modified before after)
        ∧ p.span.is_func_body = true) := by
  obtain ⟨hprobs, hlu⟩ := process_change_ok_spec _ _ _ _ _ hok
  have hchar : ∀ s : EncChangedSpan, should_make_problem tr s = true ↔
      ((∃ before after, s.change = Change.Modified before after)
        ∧ (tr = true ∨ s.is_func_body = true)) := by
    intro s
    rw [← as_char_eq_M_iff]
    simp [should_make_problem]
  constructor
  · intro s
    constructor
    · rintro ⟨p, hp, rfl⟩
      rw [hprobs] at hp
      obtain ⟨pre, suf, hsp, hsh, _, _, _⟩ := mem_gen_problems _ _ _ _ _ _ _ hp
      exact ⟨by rw [hsp]; simp, (hchar _).mp hsh⟩
    · rintro ⟨hmem, hcond⟩
      rw [hprobs]
      exact gen_problems_complete _ _ _ _ _ _ s hmem ((hchar s).mpr hcond)
        (hlu s hmem ((hchar s).mpr hcond))
  · intro htr p hp
    rw [hprobs] at hp
    obtain ⟨pre, suf, hsp, hsh, _, _, _⟩ := mem_gen_problems _ _ _ _ _ _ _ hp
    have := (hchar _).mp hsh
    rcases this with ⟨hm, hcond⟩
    rcases hcond with hcond | hcond
    · rw [htr] at hcond
      exact absurd hcond (by simp)
    · exact ⟨hm, hcond⟩

/-- Witness for C1 at a concrete non-empty run. -/
theorem c1_problem_gating_witness :
    ((∀ s : EncChangedSpan,
      (∃ p ∈ [problemB0], p.span = s) ↔
        (s ∈ considered_spans pchangeB ["b"]
          ∧ (∃ before after, s.change = Change.Modified before after)
          ∧ (false = true ∨ s.is_func_body = true)))
    ∧ (false = false → ∀ p ∈ [problemB0],
        (∃ before after, p.span.change = Change.Modified before after)
        ∧ p.span.is_func_body = true)) :=
  c1_problem_gating pchangeB usagesB ["b"] false [problemB0] (by rfl)

/-- C6: every emitted problem's `relevant_changes` equals the reversal
(latest first) of the list of all changed spans considered before the
query span during the walk over `module_order`, where every considered
span enters that rolling list whether or not a problem was emitted for
it. -/
theorem c6_relevant_changes_latest_first (pc : JProjectChangeE)
    (mu : List (ModuleName × LineUsageAnalysis)) (order : List ModuleName)
    (tr : Bool) (probs : List C3Problem)
    (hok : process_change pc mu order tr = .ok probs) :
    ∀ p ∈ probs, ∃ pre suf,
      considered_spans pc order = pre ++ p.span :: suf
      ∧ p.relevant_changes = pre.reverse := by
  obtain ⟨hprobs, _⟩ := process_change_ok_spec _ _ _ _ _ hok
  intro p hp
  rw [hprobs] at hp
  obtain ⟨pre, suf, hsp, _, hrc, _, _⟩ := mem_gen_problems _ _ _ _ _ _ _ hp
  exact ⟨pre, suf, hsp, by rw [hrc]; simp⟩

/-- Witness for C6 at a concrete run (two spans considered before the
emitted one). -/
theorem c6_relevant_changes_latest_first_witness :
    ∃ pre suf,
      considered_spans pchangeAB ["a", "b"]
        = pre ++ (⟨spanB, [spanA2, spanA1], [], none⟩ : C3Problem).span :: suf
      ∧ (⟨spanB, [spanA2, spanA1], [], none⟩ : C3Problem).relevant_changes
        = pre.reverse :=
  c6_relevant_changes_latest_first pchangeAB usagesAB ["a", "b"] false
    [⟨spanB, [spanA2, spanA1], [], none⟩] (by rfl)
    ⟨spanB, [spanA2, spanA1], [], none⟩ (List.mem_singleton.mpr rfl)

/-- C2 counterexample: a commit adds `def h(): pass` to module `m`. The
scope differ reports exactly one changed span, with `as_char() == 'A'`; but
in training mode the generator emits zero problems for it (the gate only
passes `Modified` spans), contradicting the claim that exactly one problem
with `change.as_char() == 'A'` is generated in training mode. -/
theorem c2_counterexample :
    ((get_changed_spans (Change.Modified mOldScope mNewScope)).map
        (fun s => s.change.as_char) = ['A'])
    ∧ (process_change pchangeH usagesM ["m"] true).map
        (fun probs => probs.length) = Except.ok 0 := by
  constructor
  · decide
  · rfl

/-- C2 as amended: when a commit adds a new function, no problem is
generated for the added span in either training or eval mode; every
emitted problem's span change is `Modified`. -/
theorem c2_amended_no_added_problems (pc : JProjectChangeE)
    (mu : List (ModuleName × LineUsageAnalysis)) (order : List ModuleName)
    (tr : Bool) (probs : List C3Problem)
    (hok : process_change pc mu order tr = .ok probs) :
    ∀ p ∈ probs, ∃ before after,
      p.span.change = Change.Modified before after := by
  obtain ⟨hprobs, _⟩ := process_change_ok_spec _ _ _ _ _ hok
  intro p hp
  rw [hprobs] at hp
  obtain ⟨_, _, _, hsh, _, _, _⟩ := mem_gen_problems _ _ _ _ _ _ _ hp
  have := (as_char_eq_M_iff p.span.change).mp
  simp only [should_make_problem, Bool.and_eq_true, beq_iff_eq] at hsh
  exact this hsh.1

/-- Witness for the amended C2: the emitted problem of a concrete run has
a `Modified` span change. -/
theorem c2_amended_no_added_problems_witness :
    ∃ before after,
      problemB0.span.change = Change.Modified before after :=
  c2_amended_no_added_problems pchangeB usagesB ["b"] false [problemB0]
    (by rfl) problemB0 (List.mem_singleton.mpr rfl)

theorem pick_unique_spec :
    ∀ (cs : List EncChangedSpan) (seen : List (ModuleName × (Nat × Nat))),
      (((pick_unique_spans cs seen).1.map span_seen_key).Nodup
      ∧ (∀ e ∈ (pick_unique_spans cs seen).1, span_seen_key e ∉ seen))
      ∧ (∀ k ∈ seen, k ∈ (pick_unique_spans cs seen).2)
      ∧ (∀ e ∈ (pick_unique_spans cs seen).1,
          span_seen_key e ∈ (pick_unique_spans cs seen).2) := by
  intro cs
  induction cs with
  | nil =>
    intro seen
    simp [pick_unique_spans]
  | cons c cs ih =>
    intro seen
    simp only [pick_unique_spans]
    split
    · exact ih seen
    · rename_i hnin
      obtain ⟨⟨hnd, hfresh⟩, hsub, hmem⟩ := ih (span_seen_key c :: seen)
      refine ⟨⟨?_, ?_⟩, ?_, ?_⟩
      · simp only [List.map_cons]
        refine List.nodup_cons.mpr ⟨?_, hnd⟩
        intro hmem2
        rcases List.mem_map.mp hmem2 with ⟨e, he, hke⟩
        exact hfresh e he (by rw [hke]; exact List.mem_cons_self _ _)
      · intro e he
        rcases List.mem_cons.mp he with rfl | he
        · exact hnin
        · intro hs
          exact hfresh e he (List.mem_cons_of_mem _ hs)
      · intro k hk
        exact hsub k (List.mem_cons_of_mem _ hk)
      · intro e he
        rcases List.mem_cons.mp he with rfl | he
        · exact hsub _ (List.mem_cons_self _ _)
        · exact hmem e he

theorem collect_unique_spec (f : PyDefinition → List EncChangedSpan) :
    ∀ (ds : List PyDefinition) (seen : List (ModuleName × (Nat × Nat))),
      ((collect_unique f ds seen).map span_seen_key).Nodup
      ∧ ∀ e ∈ collect_unique f ds seen, span_seen_key e ∉ seen := by
  intro ds
  induction ds with
  | nil =>
    intro seen
    simp [collect_unique]
  | cons d rest ih =>
    intro seen
    simp only [collect_unique]
    obtain ⟨⟨hnd, hfresh⟩, hsub, hmem⟩ := pick_unique_spec (f d) seen
    obtain ⟨hnd2, hfresh2⟩ := ih (pick_unique_spans (f d) seen).2
    constructor
    · rw [List.map_append, List.nodup_append]
      refine ⟨hnd, hnd2, ?_⟩
      intro k hk1 hk2
      rcases List.mem_map.mp hk1 with ⟨e, he, rfl⟩
      rcases List.mem_map.mp hk2 with ⟨e2, he2, hke⟩
      exact hfresh2 e2 he2 (hke ▸ hmem e he)
    · intro e he hs
      rcases List.mem_append.mp he with he | he
      · exact hfresh e he hs
      · exact hfresh2 e he (hsub _ hs)

theorem get_relevant_unchanged_unique (f : PyDefinition → List EncChangedSpan)
    (lu : LineUsageAnalysis) (tc : EncChangedSpan)
    (oc : List EncChangedSpan) :
    ((get_relevant_unchanged f lu tc oc).map span_seen_key).Nodup
    ∧ ∀ e ∈ get_relevant_unchanged f lu tc oc,
        span_seen_key e ∉ (tc :: oc).map span_seen_key := by
  unfold get_relevant_unchanged
  split
  · simp
  · exact collect_unique_spec f _ _

/-- C7 as amended: within every emitted problem, the `relevant_unchanged`
fragments are pairwise distinct by `(module, line_range)` key and none of
them coincides with the query span or any `relevant_changes` entry (keys
may still repeat inside `relevant_changes` itself). -/
theorem c7_amended_relevant_unchanged_unique (pc : JProjectChangeE)
    (mu : List (ModuleName × LineUsageAnalysis)) (order : List ModuleName)
    (tr : Bool) (probs : List C3Problem)
    (hok : process_change pc mu order tr = .ok probs) :
    ∀ p ∈ probs,
      ((p.relevant_unchanged.map span_seen_key).Nodup)
      ∧ ∀ e ∈ p.relevant_unchanged,
          span_seen_key e ∉ (p.span :: p.relevant_changes).map span_seen_key := by
  obtain ⟨hprobs, _⟩ := process_change_ok_spec _ _ _ _ _ hok
  intro p hp
  rw [hprobs] at hp
  obtain ⟨_, _, _, _, _, ⟨lu, _, hru⟩, _⟩ := mem_gen_problems _ _ _ _ _ _ _ hp
  rw [hru]
  exact get_relevant_unchanged_unique _ _ _ _

/-- Witness for the amended C7 at a concrete run. -/
theorem c7_amended_relevant_unchanged_unique_witness :
    (((⟨spanB, [spanA2, spanA1], [], none⟩ : C3Problem).relevant_unchanged.map
        span_seen_key).Nodup)
    ∧ ∀ e ∈ (⟨spanB, [spanA2, spanA1], [], none⟩ : C3Problem).relevant_unchanged,
        span_seen_key e
          ∉ ((⟨spanB, [spanA2, spanA1], [], none⟩ : C3Problem).span
              :: (⟨spanB, [spanA2, spanA1], [], none⟩ :
                  C3Problem).relevant_changes).map span_seen_key :=
  c7_amended_relevant_unchanged_unique pchangeAB usagesAB ["a", "b"] false
    [⟨spanB, [spanA2, spanA1], [], none⟩] (by rfl)
    ⟨spanB, [spanA2, spanA1], [], none⟩ (List.mem_singleton.mpr rfl)

/-- C7 counterexample: a successful run whose single emitted problem has
the key `("a", (1, 2))` occurring twice across
`{span} ∪ relevant_changes ∪ relevant_unchanged` (both occurrences inside
`relevant_changes`, which `process_change` never deduplicates). -/
theorem c7_counterexample :
    (process_change pchangeAB usagesAB ["a", "b"] false).map
        (fun probs => probs.map (fun p =>
          (p.span :: p.relevant_changes ++ p.relevant_unchanged).map
            span_seen_key))
      = Except.ok [[("b", (2, 3)), ("a", (1, 2)), ("a", (1, 2))]]
    ∧ ¬ ([("b", (2, 3)), ("a", (1, 2)), ("a", (1, 2))] :
          List (ModuleName × (Nat × Nat))).Nodup :=
  ⟨by rfl, by decide⟩

/-! ### Analyzer and replay fault tolerance, pre-edit guard -/

theorem count_of_bump :
    ∀ (counts : List (String × Nat)) (k : String),
      count_of (bump_count counts k) k = count_of counts k + 1
  | [], k => by simp [bump_count, count_of]
  | e :: rest, k => by
    by_cases h : e.1 = k
    · simp [bump_count, count_of, h]
    · have hb : (e.1 == k) = false := by simpa using h
      simp only [bump_count, count_of, hb]
      simp only [Bool.false_eq_true, if_false]
      exact count_of_bump rest k

/-- C8: a per-name resolution exception in `get_line_usages` is absorbed:
the loop continues with the remaining names on a state whose error
histogram is incremented at the error's canonical string — the text
truncated to 40 characters plus an ellipsis when longer — and the per-line
usage map only gains the defaulted entry for the name's line. No per-name
exception propagates (the loop is total by construction). -/
theorem c8_per_name_errors_absorbed
    (resolve : JName → Except String (List PyDefinition))
    (lines_to_analyze : List Nat) (nm : JName) (rest : List JName)
    (st : UsageState) (e : String)
    (hline : nm.start_pos.1 ∈ lines_to_analyze)
    (herr : resolve nm = .error e) :
    process_names resolve lines_to_analyze (nm :: rest) st
      = process_names resolve lines_to_analyze rest
          ⟨setdefault_usages st.line2usages nm.start_pos.1,
            bump_count st.error_counts (trunc_error e)⟩
    ∧ count_of (bump_count st.error_counts (trunc_error e)) (trunc_error e)
        = count_of st.error_counts (trunc_error e) + 1
    ∧ (40 < e.length → trunc_error e = e.take 40 ++ "...")
    ∧ (¬ 40 < e.length → trunc_error e = e) := by
  refine ⟨?_, count_of_bump _ _,
    fun h => by simp [trunc_error, h],
    fun h => by simp [trunc_error, h]⟩
  simp [process_names, hline, herr]

/-- Witness for C8: one failing name on an analyzed line. -/
theorem c8_per_name_errors_absorbed_witness :
    process_names (fun _ => Except.error "boom") [1]
        ((⟨"x", (1, 0)⟩ : JName) :: []) ⟨[], []⟩
      = process_names (fun _ => Except.error "boom") [1] []
          ⟨setdefault_usages ([] : List (Nat × List PyDefinition))
              (⟨"x", (1, 0)⟩ : JName).start_pos.1,
            bump_count [] (trunc_error "boom")⟩
    ∧ count_of (bump_count [] (trunc_error "boom")) (trunc_error "boom")
        = count_of [] (trunc_error "boom") + 1
    ∧ (40 < "boom".length → trunc_error "boom" = "boom".take 40 ++ "...")
    ∧ (¬ 40 < "boom".length → trunc_error "boom" = "boom") :=
  c8_per_name_errors_absorbed (fun _ => Except.error "boom") [1]
    ⟨"x", (1, 0)⟩ [] ⟨[], []⟩ "boom" (by decide) rfl

theorem replay_commits_results {α : Type} (budget : Nat) :
    ∀ cs : List (CommitRun α),
      (replay_commits budget cs).1
        = cs.flatMap (fun c' =>
            if c'.duration ≤ budget then
              match c'.outcome with
              | .ok rs => rs
              | .error _ => []
            else []) := by
  intro cs
  induction cs with
  | nil => rfl
  | cons c rest ih =>
    simp only [replay_commits, List.flatMap_cons]
    by_cases h : c.duration ≤ budget
    · have hgt : ¬ budget < c.duration := by omega
      rw [if_neg hgt, if_pos h]
      cases c.outcome with
      | ok rs => simp [ih]
      | error e => simp [ih]
    · have hgt : budget < c.duration := by omega
      rw [if_pos hgt, if_neg h]
      simp [ih]

/-- C9: during replay, a commit that fails (raises) or exceeds the
per-commit time budget is skipped and the replay continues with the
remaining commits; the results accumulated for the other commits are still
returned — the final result is exactly the concatenation of the
within-budget, non-raising commits' contributions. -/
theorem c9_replay_skips_failing_commits {α : Type} (budget : Nat)
    (pre post : List (CommitRun α)) (c : CommitRun α)
    (hfail : budget < c.duration ∨ ∃ e, c.outcome = .error e) :
    (replay_commits budget (pre ++ c :: post)).1
      = (replay_commits budget pre).1 ++ (replay_commits budget post).1
    ∧ (replay_commits budget (pre ++ c :: post)).1
      = (pre ++ post).flatMap (fun c' =>
          if c'.duration ≤ budget then
            match c'.outcome with
            | .ok rs => rs
            | .error _ => []
          else []) := by
  have hc : (if c.duration ≤ budget then
      match c.outcome with
      | .ok rs => rs
      | .error _ => ([] : List α)
      else []) = [] := by
    rcases hfail with h | ⟨e, h⟩
    · rw [if_neg (by omega)]
    · by_cases hd : c.duration ≤ budget
      · rw [if_pos hd, h]
      · rw [if_neg hd]
  constructor
  · rw [replay_commits_results, replay_commits_results, replay_commits_results]
    simp only [List.flatMap_append, List.flatMap_cons, hc, List.nil_append]
  · rw [replay_commits_results]
    simp only [List.flatMap_append, List.flatMap_cons, hc, List.nil_append]

/-- Witness for C9: a timing-out commit between two good ones. -/
theorem c9_replay_skips_failing_commits_witness :
    (replay_commits 10 ([⟨1, Except.ok [1]⟩]
        ++ (⟨99, Except.ok [2]⟩ : CommitRun Nat) :: [⟨1, Except.ok [3]⟩])).1
      = (replay_commits 10 [(⟨1, Except.ok [1]⟩ : CommitRun Nat)]).1
        ++ (replay_commits 10 [(⟨1, Except.ok [3]⟩ : CommitRun Nat)]).1
    ∧ (replay_commits 10 ([⟨1, Except.ok [1]⟩]
        ++ (⟨99, Except.ok [2]⟩ : CommitRun Nat) :: [⟨1, Except.ok [3]⟩])).1
      = ([⟨1, Except.ok [1]⟩, ⟨1, Except.ok [3]⟩] : List (CommitRun Nat)).flatMap
          (fun c' =>
            if c'.duration ≤ 10 then
              match c'.outcome with
              | .ok rs => rs
              | .error _ => []
            else []) :=
  c9_replay_skips_failing_commits 10 [⟨1, Except.ok [1]⟩] [⟨1, Except.ok [3]⟩]
    ⟨99, Except.ok [2]⟩ (Or.inl (by decide))

/-- C10: in `pre_edit_analysis`, the `span.change is Added` guard compares
a `Change` instance against the `Added` class object and is therefore
never true, so no span is excluded: the analyzed lines are exactly the
line ranges and header line ranges of all changed spans of every
`Modified` module, including spans whose change is `Added`. -/
theorem c10_added_guard_never_fires
    (changes : List (ModuleName × JModuleChangeE)) :
    (∀ c : Change (List String), pyIs (.inst c) .addedClass = false)
    ∧ pre_edit_lines_to_analyze changes = pre_edit_lines_all changes := by
  refine ⟨fun c => rfl, ?_⟩
  simp [pre_edit_lines_to_analyze, pre_edit_lines_all, pyIs]

/-! ## C3: token budgets of the packed records -/

theorem truncate_section_length (sec : TokenSeq) (dir : TruncDir) (limit : Nat)
    (b : Bool) : (truncate_section sec dir limit b).length ≤ limit := by
  unfold truncate_section
  split
  · assumption
  · rename_i hgt
    split
    · split
      · simp
      · rename_i l
        simp only [List.length_append, List.length_take, List.length_cons,
          List.length_nil]
        omega
      · rename_i l
        simp only [List.length_cons, List.length_drop]
        omega
    · split
      · simp only [List.length_take]
        omega
      · simp only [List.length_drop]
        omega

theorem encode_parent_scopes_length (cfg : C3ProblemTokenizer)
    (scs : List (Change ChangeScope)) (off : Int) :
    (encode_parent_scopes cfg scs off).length ≤ cfg.max_scope_tks := by
  unfold encode_parent_scopes
  exact truncate_section_length _ _ _ _

theorem break_into_chunks_go_length (header : Nat → TokenSeq)
    (cs ov : Nat) (rtl : Bool) (H : Nat) (hH : ∀ j, (header j).length ≤ H)
    (hcs : H ≤ cs) :
    ∀ (fuel : Nat) (content : TokenSeq) (i : Nat),
      ∀ c ∈ break_into_chunks_go header cs ov rtl fuel content i,
        c.length ≤ cs := by
  intro fuel
  induction fuel with
  | zero =>
    intro content i c hc
    simp [break_into_chunks_go] at hc
  | succ fuel ih =>
    intro content i c hc
    rw [break_into_chunks_go] at hc
    dsimp only at hc
    have hchunk : (header i ++
        (if rtl then (content.take (cs - (header i).length)).reverse
         else content.take (cs - (header i).length))).length ≤ cs := by
      have hh := hH i
      split
      · simp only [List.length_append, List.length_reverse, List.length_take]
        omega
      · simp only [List.length_append, List.length_take]
        omega
    split at hc
    · simp at hc
    · split at hc
      · rw [List.mem_singleton] at hc
        exact hc ▸ hchunk
      · rcases List.mem_cons.mp hc with h | h
        · exact h ▸ hchunk
        · exact ih _ _ c h

theorem break_into_chunks_length (content : TokenSeq) (header : Nat → TokenSeq)
    (cs ov : Nat) (rtl : Bool) (H : Nat) (hH : ∀ j, (header j).length ≤ H)
    (hcs : H ≤ cs) :
    ∀ c ∈ break_into_chunks content header cs ov rtl, c.length ≤ cs := by
  intro c hc
  exact break_into_chunks_go_length header cs ov rtl H hH hcs _ _ _ c hc

theorem keep_refs_subset (limit : Nat) :
    ∀ (rs : List (String × TokenSeq)) (s : Nat) (r : String × TokenSeq),
      r ∈ keep_refs limit s rs → r ∈ rs := by
  intro rs
  induction rs with
  | nil =>
    intro s r h
    simp [keep_refs] at h
  | cons a t ih =>
    intro s r h
    rw [keep_refs] at h
    split at h
    · rcases List.mem_cons.mp h with h | h
      · exact h ▸ List.mem_cons_self _ _
      · exact List.mem_cons_of_mem _ (ih _ _ h)
    · exact List.mem_cons_of_mem _ (ih _ _ h)

theorem keep_refs_sum (limit : Nat) :
    ∀ (rs : List (String × TokenSeq)) (s : Nat), s ≤ limit →
      s + ((keep_refs limit s rs).map (fun r => r.2.length)).sum ≤ limit := by
  intro rs
  induction rs with
  | nil =>
    intro s hs
    simpa [keep_refs] using hs
  | cons a t ih =>
    intro s hs
    rw [keep_refs]
    split
    · rename_i hle
      simp only [List.map_cons, List.sum_cons]
      have := ih (s + a.2.length) hle
      omega
    · exact ih s hs

theorem snd_mem_of_mem_enumFrom {α : Type} :
    ∀ (l : List α) (n : Nat) (p : Nat × α), p ∈ l.enumFrom n → p.2 ∈ l := by
  intro l
  induction l with
  | nil =>
    intro n p h
    simp [List.enumFrom] at h
  | cons a t ih =>
    intro n p h
    rw [List.enumFrom] at h
    rcases List.mem_cons.mp h with h | h
    · subst h
      exact List.mem_cons_self _ _
    · exact List.mem_cons_of_mem _ (ih _ _ h)

theorem group_encode_changed_refs_length (cfg : C3ProblemTokenizer)
    (hr : cfg.max_scope_tks ≤ cfg.max_ref_tks) (changes : List EncChangedSpan) :
    ∀ c ∈ group_encode_changed_refs cfg changes, c.length ≤ cfg.max_ref_tks := by
  intro c hc
  rw [group_encode_changed_refs] at hc
  rcases List.mem_flatMap.mp hc with ⟨grp, _, hcg⟩
  dsimp only at hcg
  exact break_into_chunks_length _ _ _ _ _ cfg.max_scope_tks
    (fun j => encode_parent_scopes_length cfg _ _) hr c hcg

theorem scope_plus_trunc_le (cfg : C3ProblemTokenizer) (scope_tks sec : TokenSeq)
    (hscope : scope_tks.length ≤ cfg.max_scope_tks)
    (hq : cfg.max_scope_tks ≤ cfg.max_query_tks) :
    (scope_tks
      ++ truncate_section sec .Right (cfg.max_query_tks - scope_tks.length)).length
      ≤ cfg.max_query_tks := by
  rw [List.length_append]
  have h1 := truncate_section_length sec .Right
    (cfg.max_query_tks - scope_tks.length) true
  omega

theorem mk_tk_problem_budget (cfg : C3ProblemTokenizer) (span : EncChangedSpan)
    (psrc : Option String) (named : List (String × TokenSeq))
    (scope_tks : TokenSeq) (origin : List TokenSeq) (l : Nat)
    (finished : Bool) (prev ci co : TokenSeq)
    (hscope : scope_tks.length ≤ cfg.max_scope_tks)
    (hnamed : ∀ nr ∈ named, nr.2.length ≤ cfg.max_ref_tks)
    (hq : cfg.max_scope_tks ≤ cfg.max_query_tks)
    (hr : cfg.max_scope_tks ≤ cfg.max_ref_tks) :
    tk_budget_ok cfg (mk_tk_problem cfg span psrc named scope_tks
      (cfg.max_query_tks - scope_tks.length) origin l finished prev ci co) := by
  unfold tk_budget_ok mk_tk_problem
  dsimp only
  refine ⟨?_, ?_, ?_, ?_⟩
  · exact scope_plus_trunc_le cfg scope_tks _ hscope hq
  · exact truncate_section_length _ _ _ _
  · intro nr hnr
    have hmem := keep_refs_subset _ _ _ _ hnr
    rcases List.mem_append.mp hmem with hmem | hmem
    · rcases List.mem_append.mp hmem with hmem | hmem
      · rcases List.mem_map.mp hmem with ⟨p, hp, hnr2⟩
        have hp2 := snd_mem_of_mem_enumFrom _ _ _ hp
        have := break_into_chunks_length _ _ _ _ _ cfg.max_scope_tks
          (fun j => encode_parent_scopes_length cfg _ _) hr p.2 hp2
        rw [← hnr2]
        exact this
      · rcases List.mem_map.mp hmem with ⟨p, hp, hnr2⟩
        rw [← hnr2]
        split at hp
        · simp at hp
        · have hp2 := snd_mem_of_mem_enumFrom _ _ _ hp
          exact break_into_chunks_length _ _ _ _ _ cfg.max_scope_tks
            (fun j => encode_parent_scopes_length cfg _ _) hr p.2 hp2
    · exact hnamed nr hmem
  · exact le_trans (Nat.le_add_left _ 0)
      (keep_refs_sum cfg.max_total_ref_tks _ 0 (Nat.zero_le _))

theorem tok_append_step_problems (origin : List TokenSeq) (tkd : TkDelta)
    (l : Nat) (st : TokLoopState) :
    (tok_append_step origin tkd l st).problems = st.problems := rfl

theorem tokenize_loop_budget (cfg : C3ProblemTokenizer) (span : EncChangedSpan)
    (psrc : Option String) (named : List (String × TokenSeq))
    (scope_tks : TokenSeq) (origin : List TokenSeq) (tkd : TkDelta)
    (hscope : scope_tks.length ≤ cfg.max_scope_tks)
    (hnamed : ∀ nr ∈ named, nr.2.length ≤ cfg.max_ref_tks)
    (hq : cfg.max_scope_tks ≤ cfg.max_query_tks)
    (hr : cfg.max_scope_tks ≤ cfg.max_ref_tks) :
    ∀ (fuel l : Nat) (st : TokLoopState),
      (∀ p ∈ st.problems, tk_budget_ok cfg p) →
      ∀ p ∈ tokenize_loop cfg span psrc named scope_tks
            (cfg.max_query_tks - scope_tks.length) origin tkd fuel l st,
        tk_budget_ok cfg p := by
  intro fuel
  induction fuel with
  | zero =>
    intro l st hinv p hp
    rw [tokenize_loop] at hp
    exact hinv p hp
  | succ fuel ih =>
    intro l st hinv p hp
    rw [tokenize_loop] at hp
    dsimp only at hp
    have hinv' : ∀ q ∈ (if has_change st.chunk_output = true then
        st.problems ++ [mk_tk_problem cfg span psrc named scope_tks
          (cfg.max_query_tks - scope_tks.length) origin l
          (l == tkd.deltas.length) st.prev_change_tks st.chunk_input
          st.chunk_output]
        else st.problems), tk_budget_ok cfg q := by
      split
      · intro q hq'
        rcases List.mem_append.mp hq' with h | h
        · exact hinv q h
        · rw [List.mem_singleton] at h
          subst h
          exact mk_tk_problem_budget cfg span psrc named scope_tks origin l
            (l == tkd.deltas.length) st.prev_change_tks st.chunk_input
            st.chunk_output hscope hnamed hq hr
      · exact hinv
    split at hp
    · generalize hP : (if has_change st.chunk_output = true then
          st.problems ++ [mk_tk_problem cfg span psrc named scope_tks
            (cfg.max_query_tks - scope_tks.length) origin l
            (l == tkd.deltas.length) st.prev_change_tks st.chunk_input
            st.chunk_output]
          else st.problems) = P' at hp
      rw [hP] at hinv'
      split at hp
      · exact hinv' p hp
      · split at hp
        · exact hinv' p hp
        · refine ih _ _ ?_ p hp
          intro q hq'
          rw [tok_append_step_problems] at hq'
          exact hinv' q hq'
    · refine ih _ _ ?_ p hp
      intro q hq'
      rw [tok_append_step_problems] at hq'
      exact hinv q hq'

/-- C3: every record returned by `C3ProblemTokenizer.tokenize_problem`
respects the token budgets: the input has at most `max_query_tks` tokens,
the output at most `max_output_tks`, every named reference chunk at most
`max_ref_tks`, and the total size of the named references at most
`max_total_ref_tks`. This holds for every configuration satisfying
`max_scope_tks ≤ max_query_tks` and `max_scope_tks ≤ max_ref_tks`
(the source defaults 128 ≤ 512 satisfy both). -/
theorem c3_token_budgets (cfg : C3ProblemTokenizer) (problem : C3Problem)
    (r : TkC3Problem)
    (hq : cfg.max_scope_tks ≤ cfg.max_query_tks)
    (hr : cfg.max_scope_tks ≤ cfg.max_ref_tks)
    (hmem : r ∈ tokenize_problem cfg problem) :
    r.input_tks.length ≤ cfg.max_query_tks ∧
    r.output_tks.length ≤ cfg.max_output_tks ∧
    (∀ nr ∈ r.named_references, nr.2.length ≤ cfg.max_ref_tks) ∧
    (r.named_references.map (fun nr => nr.2.length)).sum
      ≤ cfg.max_total_ref_tks := by
  rw [tokenize_problem] at hmem
  have hnamed : ∀ nr ∈
      (((group_encode_changed_refs cfg problem.relevant_changes).enum.map
        (fun p => (s!"changed ref {p.1}", p.2)))
      ++ ((group_encode_unchanged_refs cfg problem.relevant_unchanged).enum.map
        (fun p => (s!"unchanged ref {p.1}", p.2)))),
      nr.2.length ≤ cfg.max_ref_tks := by
    intro nr hnr
    rcases List.mem_append.mp hnr with h | h
    · rcases List.mem_map.mp h with ⟨p, hp, hnr2⟩
      rw [← hnr2]
      exact group_encode_changed_refs_length cfg hr _ p.2
        (snd_mem_of_mem_enumFrom _ _ _ hp)
    · rcases List.mem_map.mp h with ⟨p, hp, hnr2⟩
      rw [← hnr2]
      exact group_encode_changed_refs_length cfg hr _ p.2
        (snd_mem_of_mem_enumFrom _ _ _ hp)
  have h := tokenize_loop_budget cfg problem.span problem.src_info _
    (encode_parent_scopes cfg problem.span.parent_scopes 0) _ _
    (encode_parent_scopes_length cfg _ _) hnamed hq hr _ 0
    ⟨0, [], 0, [], [], []⟩ (by intro q hq'; simp at hq') r hmem
  unfold tk_budget_ok at h
  exact h

theorem headD_mem_of_length_pos {α : Type} (l : List α) (d : α)
    (h : 0 < l.length) : l.headD d ∈ l := by
  cases l with
  | nil => simp at h
  | cons a t => exact List.mem_cons_self _ _

/-- Witness for C3: the default configuration applied to the concrete
problem `problemB0` emits a record meeting all four budgets. -/
theorem c3_token_budgets_witness :
    c3witCfg.max_scope_tks ≤ c3witCfg.max_query_tks ∧
    c3witCfg.max_scope_tks ≤ c3witCfg.max_ref_tks ∧
    c3wit_record ∈ tokenize_problem c3witCfg problemB0 ∧
    (c3wit_record.input_tks.length ≤ c3witCfg.max_query_tks ∧
     c3wit_record.output_tks.length ≤ c3witCfg.max_output_tks ∧
     (∀ nr ∈ c3wit_record.named_references,
        nr.2.length ≤ c3witCfg.max_ref_tks) ∧
     (c3wit_record.named_references.map (fun nr => nr.2.length)).sum
       ≤ c3witCfg.max_total_ref_tks) :=
  have hmem : c3wit_record ∈ tokenize_problem c3witCfg problemB0 :=
    headD_mem_of_length_pos _ dummyTkProblem (by decide)
  ⟨by decide, by decide, hmem,
    c3_token_budgets c3witCfg problemB0 c3wit_record (by decide) (by decide)
      hmem⟩
